import Mathlib

/-!
Verification of the Abyat poem codec and annotation-index maintenance logic.

JavaScript strings are modelled as lists of characters (`JStr`); all string
operations used by the source (split, trim, startsWith, substring, indexOf)
are defined explicitly below with JavaScript semantics.  JSON values are
modelled by the inductive type `Json`; `JSON.stringify` and `JSON.parse`
are modelled by `stringifyJson` and `jsonParse` (numbers are modelled as
integers, which covers every number the codec itself produces).
-/

set_option maxHeartbeats 1000000

abbrev JStr := List Char

/-- Whitespace characters recognised by the JavaScript trim operation
(the subset relevant to this code base). -/
def jsWs (c : Char) : Bool :=
  c = ' ' || c = '\t' || c = '\n' || c = '\r' || c = '\x0b' || c = '\x0c' ||
  c = ' ' || c = '﻿'

/-- Model of JavaScript trimStart. -/
def jsTrimLeft (s : JStr) : JStr := s.dropWhile jsWs

/-- Model of JavaScript trimEnd. -/
def jsTrimRight (s : JStr) : JStr := (s.reverse.dropWhile jsWs).reverse

/-- Model of JavaScript trim. -/
def jsTrim (s : JStr) : JStr := jsTrimRight (jsTrimLeft s)

/-- Model of JavaScript split on a single-character separator. -/
def jsSplit (sep : Char) : JStr → List JStr
  | [] => [[]]
  | c :: cs =>
    if c = sep then [] :: jsSplit sep cs
    else
      match jsSplit sep cs with
      | [] => [[c]]
      | t :: ts => (c :: t) :: ts

/-- Model of JavaScript split on the regular expression class of the two
comma characters (ASCII and Arabic). -/
def jsSplit2 (sep1 sep2 : Char) : JStr → List JStr
  | [] => [[]]
  | c :: cs =>
    if c = sep1 || c = sep2 then [] :: jsSplit2 sep1 sep2 cs
    else
      match jsSplit2 sep1 sep2 cs with
      | [] => [[c]]
      | t :: ts => (c :: t) :: ts

/-- Model of JavaScript String.startsWith. -/
def jsStartsWith : JStr → JStr → Bool
  | [], _ => true
  | _ :: _, [] => false
  | a :: as, b :: bs => a = b && jsStartsWith as bs

/-- Model of JavaScript String.endsWith. -/
def jsEndsWith (suf s : JStr) : Bool := jsStartsWith suf.reverse s.reverse

/-- Model of JavaScript String.indexOf, returning none for -1. -/
def jsIndexOf : JStr → JStr → Option Nat
  | hay, needle =>
    if jsStartsWith needle hay then some 0
    else
      match hay with
      | [] => none
      | _ :: t => (jsIndexOf t needle).map (· + 1)

/-- JSON values.  Numbers are modelled as integers (every number written by
the codec is a non-negative integer). -/
inductive Json where
  | jnull : Json
  | jbool (b : Bool) : Json
  | jnum (n : Int) : Json
  | jstr (s : JStr) : Json
  | jarr (elems : List Json) : Json
  | jobj (fields : List (JStr × Json)) : Json

open Json

mutual
/-- Boolean equality on JSON values. -/
def beqJson : Json → Json → Bool
  | jnull, jnull => true
  | jbool a, jbool b => a = b
  | jnum a, jnum b => a = b
  | jstr a, jstr b => a = b
  | jarr a, jarr b => beqJsonList a b
  | jobj a, jobj b => beqJsonFields a b
  | _, _ => false

/-- Boolean equality on lists of JSON values. -/
def beqJsonList : List Json → List Json → Bool
  | [], [] => true
  | a :: as, b :: bs => beqJson a b && beqJsonList as bs
  | _, _ => false

/-- Boolean equality on JSON object field lists. -/
def beqJsonFields : List (JStr × Json) → List (JStr × Json) → Bool
  | [], [] => true
  | (k, v) :: as, (k', v') :: bs => k = k' && beqJson v v' && beqJsonFields as bs
  | _, _ => false
end

mutual
theorem beqJson_iff : ∀ a b, beqJson a b = true ↔ a = b
  | jnull, jnull => by simp [beqJson]
  | jbool a, jbool b => by simp [beqJson]
  | jnum a, jnum b => by simp [beqJson]
  | jstr a, jstr b => by simp [beqJson]
  | jarr a, jarr b => by
      simp only [beqJson, beqJsonList_iff a b]
      constructor
      · intro h; rw [h]
      · intro h; cases h; rfl
  | jobj a, jobj b => by
      simp only [beqJson, beqJsonFields_iff a b]
      constructor
      · intro h; rw [h]
      · intro h; cases h; rfl
  | jnull, jbool _ | jnull, jnum _ | jnull, jstr _ | jnull, jarr _
  | jnull, jobj _ | jbool _, jnull | jbool _, jnum _ | jbool _, jstr _
  | jbool _, jarr _ | jbool _, jobj _ | jnum _, jnull | jnum _, jbool _
  | jnum _, jstr _ | jnum _, jarr _ | jnum _, jobj _ | jstr _, jnull
  | jstr _, jbool _ | jstr _, jnum _ | jstr _, jarr _ | jstr _, jobj _
  | jarr _, jnull | jarr _, jbool _ | jarr _, jnum _ | jarr _, jstr _
  | jarr _, jobj _ | jobj _, jnull | jobj _, jbool _ | jobj _, jnum _
  | jobj _, jstr _ | jobj _, jarr _ => by simp [beqJson]

theorem beqJsonList_iff : ∀ as bs, beqJsonList as bs = true ↔ as = bs
  | [], [] => by simp [beqJsonList]
  | a :: as, b :: bs => by
      simp [beqJsonList, beqJson_iff a b, beqJsonList_iff as bs]
  | [], _ :: _ => by simp [beqJsonList]
  | _ :: _, [] => by simp [beqJsonList]

theorem beqJsonFields_iff :
    ∀ as bs, beqJsonFields as bs = true ↔ as = bs
  | [], [] => by simp [beqJsonFields]
  | (k, v) :: as, (k', v') :: bs => by
      simp [beqJsonFields, beqJson_iff v v', beqJsonFields_iff as bs,
        Prod.ext_iff, and_assoc]
  | [], _ :: _ => by simp [beqJsonFields]
  | _ :: _, [] => by simp [beqJsonFields]
end

instance : DecidableEq Json := fun a b => decidable_of_iff _ (beqJson_iff a b)

/-- Decimal digit character for a value below ten. -/
def digitChar (n : Nat) : Char := Char.ofNat (48 + n)

/-- Fueled helper for the decimal representation of a natural number. -/
def natToDigitsAux : Nat → Nat → JStr → JStr
  | 0, _, acc => acc
  | fuel + 1, n, acc =>
    if n < 10 then digitChar n :: acc
    else natToDigitsAux fuel (n / 10) (digitChar (n % 10) :: acc)

/-- Decimal representation of a natural number, as JavaScript prints it. -/
def natToDigits (n : Nat) : JStr := natToDigitsAux (n + 1) n []

/-- Decimal representation of an integer, as JavaScript prints it. -/
def intToDigits (i : Int) : JStr :=
  if i < 0 then '-' :: natToDigits i.natAbs else natToDigits i.natAbs

/-- Lower-case hexadecimal digit for a value below sixteen. -/
def hexDigit (n : Nat) : Char :=
  if n < 10 then Char.ofNat (48 + n) else Char.ofNat (87 + n)

/-- Escape of one character inside a JSON string literal, following
JSON.stringify: quote and backslash are escaped, control characters use
the short escapes or a \u00XX escape, everything else is verbatim. -/
def escapeChar (c : Char) : JStr :=
  if c = '"' then ['\\', '"']
  else if c = '\\' then ['\\', '\\']
  else if c = '\n' then ['\\', 'n']
  else if c = '\r' then ['\\', 'r']
  else if c = '\t' then ['\\', 't']
  else if c = '\x08' then ['\\', 'b']
  else if c = '\x0c' then ['\\', 'f']
  else if c.toNat < 32 then
    ['\\', 'u', '0', '0', hexDigit (c.toNat / 16), hexDigit (c.toNat % 16)]
  else [c]

/-- Escaped body of a JSON string literal, without the quotes. -/
def escBody (s : JStr) : JStr := s.foldr (fun c acc => escapeChar c ++ acc) []

/-- JSON string literal for a character list, quotes included. -/
def escapeString (s : JStr) : JStr := '"' :: escBody s ++ ['"']

mutual
/-- Model of JSON.stringify. -/
def stringifyJson : Json → JStr
  | jnull => ['n', 'u', 'l', 'l']
  | jbool b => if b then ['t', 'r', 'u', 'e'] else ['f', 'a', 'l', 's', 'e']
  | jnum n => intToDigits n
  | jstr s => escapeString s
  | jarr xs => '[' :: stringifyArr xs ++ [']']
  | jobj fs => '\x7b' :: stringifyObj fs ++ ['\x7d']

/-- Comma-separated stringification of array elements. -/
def stringifyArr : List Json → JStr
  | [] => []
  | x :: xs =>
      stringifyJson x ++ (if xs.isEmpty then [] else ',' :: stringifyArr xs)

/-- Comma-separated stringification of object fields. -/
def stringifyObj : List (JStr × Json) → JStr
  | [] => []
  | (k, v) :: fs =>
      escapeString k ++ ':' :: stringifyJson v ++
        (if fs.isEmpty then [] else ',' :: stringifyObj fs)
end

/-- Whitespace skipped between JSON tokens. -/
def jsonWs (c : Char) : Bool := c = ' ' || c = '\t' || c = '\n' || c = '\r'

/-- Skip leading JSON whitespace. -/
def skipWs (s : JStr) : JStr := s.dropWhile jsonWs

/-- Value of a hexadecimal digit character. -/
def hexVal (c : Char) : Option Nat :=
  if '0' ≤ c ∧ c ≤ '9' then some (c.toNat - 48)
  else if 'a' ≤ c ∧ c ≤ 'f' then some (c.toNat - 87)
  else if 'A' ≤ c ∧ c ≤ 'F' then some (c.toNat - 55)
  else none

/-- Prepend a character to the decoded content of a string-body parse. -/
def strCons (c : Char) (o : Option (JStr × JStr)) : Option (JStr × JStr) :=
  o.map (fun p => (c :: p.1, p.2))

/-- Simple escapes accepted after a backslash in a JSON string. -/
def escCharOf (e : Char) : Option Char :=
  if e = '"' then some '"'
  else if e = '\\' then some '\\'
  else if e = '/' then some '/'
  else if e = 'n' then some '\n'
  else if e = 'r' then some '\r'
  else if e = 't' then some '\t'
  else if e = 'b' then some '\x08'
  else if e = 'f' then some '\x0c'
  else none

/-- Decode the body of a JSON string literal after the opening quote,
returning the decoded content and the input after the closing quote. -/
def parseStrBody : JStr → Option (JStr × JStr)
  | [] => none
  | c :: r =>
    if c = '"' then some ([], r)
    else if c = '\\' then
      match r with
      | [] => none
      | e :: r2 =>
        if e = 'u' then
          match r2 with
          | h1 :: h2 :: h3 :: h4 :: r' =>
            match hexVal h1, hexVal h2, hexVal h3, hexVal h4 with
            | some a, some b, some c', some d =>
              strCons (Char.ofNat (((a * 16 + b) * 16 + c') * 16 + d))
                (parseStrBody r')
            | _, _, _, _ => none
          | _ => none
        else
          match escCharOf e with
          | some c' => strCons c' (parseStrBody r2)
          | none => none
    else strCons c (parseStrBody r)

/-- Digit test for number parsing. -/
def isDigitChar (c : Char) : Bool := '0' ≤ c && c ≤ '9'

/-- Decode a block of decimal digits. -/
def digitsToNat (ds : JStr) : Nat :=
  ds.foldl (fun a c => a * 10 + (c.toNat - 48)) 0

/-- Parse an integer JSON number (optional minus sign, then digits). -/
def parseNum (s : JStr) : Option (Int × JStr) :=
  match s with
  | [] => none
  | c :: r =>
    if c = '-' then
      let ds := r.takeWhile isDigitChar
      if ds = [] then none
      else some (-(digitsToNat ds : Int), r.dropWhile isDigitChar)
    else
      let ds := (c :: r).takeWhile isDigitChar
      if ds = [] then none
      else some ((digitsToNat ds : Int), (c :: r).dropWhile isDigitChar)

/-- Insert a key/value pair into an object field list, replacing the value
in place when the key is already present (JSON.parse duplicate-key rule). -/
def insertField (fs : List (JStr × Json)) (k : JStr) (v : Json) :
    List (JStr × Json) :=
  match fs with
  | [] => [(k, v)]
  | (k', v') :: rest =>
    if k' = k then (k', v) :: rest else (k', v') :: insertField rest k v

mutual
/-- Fueled JSON value parser; returns the value and the unconsumed input. -/
def parseVal : Nat → JStr → Option (Json × JStr)
  | 0, _ => none
  | fuel + 1, s =>
    let s' := skipWs s
    if jsStartsWith "null".data s' then some (jnull, s'.drop 4)
    else if jsStartsWith "true".data s' then some (jbool true, s'.drop 4)
    else if jsStartsWith "false".data s' then some (jbool false, s'.drop 5)
    else
      match s' with
      | [] => none
      | c :: r =>
        if c = '"' then (parseStrBody r).map (fun p => (jstr p.1, p.2))
        else if c = '[' then
          match skipWs r with
          | ']' :: r2 => some (jarr [], r2)
          | _ => (parseArrItems fuel r).map (fun p => (jarr p.1, p.2))
        else if c = '\x7b' then
          match skipWs r with
          | '\x7d' :: r2 => some (jobj [], r2)
          | _ => (parseObjItems fuel r []).map (fun p => (jobj p.1, p.2))
        else (parseNum (c :: r)).map (fun p => (jnum p.1, p.2))

/-- Parse the remaining elements of a non-empty JSON array. -/
def parseArrItems : Nat → JStr → Option (List Json × JStr)
  | 0, _ => none
  | fuel + 1, s =>
    match parseVal fuel s with
    | none => none
    | some (v, r) =>
      match skipWs r with
      | ',' :: r2 =>
        (parseArrItems fuel r2).map (fun p => (v :: p.1, p.2))
      | ']' :: r2 => some ([v], r2)
      | _ => none

/-- Parse the remaining fields of a non-empty JSON object, accumulating
into the field list with duplicate keys overwritten. -/
def parseObjItems : Nat → JStr → List (JStr × Json) →
    Option (List (JStr × Json) × JStr)
  | 0, _, _ => none
  | fuel + 1, s, acc =>
    match skipWs s with
    | '"' :: r =>
      match parseStrBody r with
      | none => none
      | some (k, r1) =>
        match skipWs r1 with
        | ':' :: r2 =>
          match parseVal fuel r2 with
          | none => none
          | some (v, r3) =>
            match skipWs r3 with
            | ',' :: r4 => parseObjItems fuel r4 (insertField acc k v)
            | '\x7d' :: r4 => some (insertField acc k v, r4)
            | _ => none
        | _ => none
    | _ => none
end

/-- Model of JSON.parse: parse one value, require only whitespace after it;
returns none where JSON.parse would throw. -/
def jsonParse (s : JStr) : Option Json :=
  match parseVal (2 * s.length + 2) s with
  | some (v, r) => if skipWs r = [] then some v else none
  | none => none

/-- Verse structure from types.ts: first and second hemistich. -/
structure AbyatVerse where
  sadr : JStr
  ajaz : JStr
deriving DecidableEq

/-- Runtime poem object.  The `annotations` field holds the raw JSON values
the parser stores without validating them; `legacyAnnotations` holds
whatever JSON value the legacy metadata line parsed to.  The `gloss`
field of the typed annotation structure below corresponds to the source
field named annotation. -/
structure AbyatPoem where
  title : Option JStr
  poet : Option JStr
  tags : List JStr
  verses : List AbyatVerse
  layout : JStr
  size : JStr
  numbered : Bool
  annotations : List Json
  legacyAnnotations : Option Json
deriving DecidableEq

/-- Default poem created by AbyatParser.createDefaultPoem. -/
def createDefaultPoem : AbyatPoem :=
  { title := none, poet := none, tags := [], verses := []
    layout := "side-by-side".data, size := "medium".data, numbered := false
    annotations := [], legacyAnnotations := none }

/-- JavaScript truthiness of a JSON value. -/
def jsTruthy : Json → Bool
  | jnull => false
  | jbool b => b
  | jnum n => !(n = 0)
  | jstr s => !s.isEmpty
  | jarr _ => true
  | jobj _ => true

/-- Model of Object.keys on a JSON value (object keys; string indices for a
string; empty for the other primitives reaching this code). -/
def objKeys : Json → List JStr
  | jobj fs => fs.map Prod.fst
  | jstr s => (List.range s.length).map natToDigits
  | _ => []

/-- Model of JavaScript property lookup obj[key] on a JSON value. -/
def objGet : Json → JStr → Option Json
  | jobj fs, k => (fs.find? (fun f => f.1 = k)).map Prod.snd
  | jstr s, k =>
      ((List.range s.length).find? (fun i => natToDigits i = k)).map
        (fun i => jstr [s.getD i ' '])
  | _, _ => none

/-- Property lookup defaulting to null (used where the source guarantees
the key is present). -/
def objGetD (j : Json) (k : JStr) : Json := (objGet j k).getD jnull

/-- JSON object pushed by convertLegacyAnnotations for one matched word,
with the field order of the source object literal. -/
def mkLegacyAnnJson (cnt : Nat) (word : JStr) (gloss : Json) (vi : Nat)
    (partName : JStr) (s e : Nat) : Json :=
  jobj [("id".data, jstr ("legacy_".data ++ natToDigits cnt)),
        ("text".data, jstr word),
        ("annotation".data, gloss),
        ("verseIndex".data, jnum vi),
        ("part".data, jstr partName),
        ("startPos".data, jnum s),
        ("endPos".data, jnum e)]

/-- One pass of convertLegacyAnnotations over a single hemistich: for every
legacy key occurring in the hemistich, push one annotation at its first
occurrence, threading the id counter. -/
def legacyPartScan (legacy : Json) (vi : Nat) (partName ptext : JStr)
    (st : Nat × List Json) : Nat × List Json :=
  (objKeys legacy).foldl
    (fun st word =>
      match jsIndexOf ptext word with
      | some i =>
          (st.1 + 1,
           st.2 ++ [mkLegacyAnnJson st.1 word (objGetD legacy word) vi partName
                      i (i + word.length)])
      | none => st)
    st

/-- Model of AbyatParser.convertLegacyAnnotations: scan each verse, sadr
then ajaz, pushing a positional annotation for each legacy key found. -/
def convertLegacyAnnotations (legacy : Json) (verses : List AbyatVerse) :
    List Json :=
  (verses.enum.foldl
    (fun st p =>
      legacyPartScan legacy p.1 "ajaz".data p.2.ajaz
        (legacyPartScan legacy p.1 "sadr".data p.2.sadr st))
    (0, [])).2

/-- Comma fallback grammar of AbyatParser.parseTags: split on ASCII or
Arabic comma, trim, drop empties. -/
def parseTagsComma (tagsString : JStr) : List JStr :=
  ((jsSplit2 '،' ',' tagsString).map jsTrim).filter (fun t => !t.isEmpty)

/-- Model of AbyatParser.parseTags. -/
def parseTags (tagsString : JStr) : List JStr :=
  if tagsString.isEmpty then []
  else if jsStartsWith "[".data tagsString && jsEndsWith "]".data tagsString then
    match jsonParse tagsString with
    | some (jarr xs) =>
        xs.filterMap (fun j => match j with | jstr s => some s | _ => none)
    | some _ => []
    | none => parseTagsComma tagsString
  else parseTagsComma tagsString

/-- Model of the JavaScript Array.prototype.join on character lists. -/
def joinSep (sep : JStr) : List JStr → JStr
  | [] => []
  | [x] => x
  | x :: y :: xs => x ++ sep ++ joinSep sep (y :: xs)

/-- Model of AbyatParser.formatTags: join with Arabic comma and space. -/
def formatTags (tags : List JStr) : JStr :=
  if tags.isEmpty then [] else joinSep "، ".data tags

/-- Model of AbyatParser.parseMetadataLine (the line is already trimmed by
the caller). -/
def parseMetadataLine (line : JStr) (poem : AbyatPoem) : AbyatPoem :=
  if jsStartsWith "title:".data line then
    { poem with title := some (jsTrim (line.drop 6)) }
  else if jsStartsWith "poet:".data line then
    { poem with poet := some (jsTrim (line.drop 5)) }
  else if jsStartsWith "tags:".data line then
    { poem with tags := parseTags (jsTrim (line.drop 5)) }
  else if jsStartsWith "layout:".data line then
    let layout := jsTrim (line.drop 7)
    if layout = "side-by-side".data ∨ layout = "stacked".data then
      { poem with layout := layout }
    else poem
  else if jsStartsWith "size:".data line then
    let size := jsTrim (line.drop 5)
    if size = "small".data ∨ size = "medium".data ∨ size = "large".data then
      { poem with size := size }
    else poem
  else if jsStartsWith "numbered:".data line then
    { poem with numbered := jsTrim (line.drop 9) = "true".data }
  else if jsStartsWith "annotations:".data line then
    match jsonParse (jsTrim (line.drop 12)) with
    | some (jarr xs) => { poem with annotations := xs }
    | some _ => poem
    | none => { poem with annotations := [] }
  else if jsStartsWith "legacyAnnotations:".data line then
    match jsonParse (jsTrim (line.drop 18)) with
    | some j => { poem with legacyAnnotations := some j }
    | none => poem
  else poem

/-- Model of AbyatParser.parseVerseLine (the line is already trimmed):
split on the pipe character, trim the parts, and push a verse only when
there are exactly two parts. -/
def parseVerseLine (line : JStr) (poem : AbyatPoem) : AbyatPoem :=
  match (jsSplit '|' line).map jsTrim with
  | [a, b] => { poem with verses := poem.verses ++ [⟨a, b⟩] }
  | _ => poem

/-- The line loop of AbyatParser.parsePoem: metadata until a line trims to
the separator, verse lines afterwards, blank lines skipped. -/
def parseLines : List JStr → Bool → AbyatPoem → AbyatPoem
  | [], _, poem => poem
  | l :: ls, inMeta, poem =>
    let t := jsTrim l
    if t = "---".data then parseLines ls false poem
    else if inMeta then parseLines ls inMeta (parseMetadataLine t poem)
    else if !t.isEmpty then parseLines ls inMeta (parseVerseLine t poem)
    else parseLines ls inMeta poem

/-- The scan phase of AbyatParser.parsePoem, before legacy migration. -/
def parsePoemScan (source : JStr) : AbyatPoem :=
  parseLines (jsSplit '\n' source) true createDefaultPoem

/-- Model of AbyatParser.parsePoem: scan all lines, then migrate legacy
annotations when they are present (truthy) and no new-format annotations
were parsed, deleting the legacy field in that case. -/
def parsePoem (source : JStr) : AbyatPoem :=
  let poem := parsePoemScan source
  match poem.legacyAnnotations with
  | some legacy =>
    if jsTruthy legacy && poem.annotations.isEmpty then
      { poem with annotations := convertLegacyAnnotations legacy poem.verses
                  legacyAnnotations := none }
    else poem
  | none => poem

/-- Model of AbyatParser.addMetadataToLines. -/
def addMetadataToLines (poem : AbyatPoem) : List JStr :=
  (match poem.title with
   | some t => if !t.isEmpty then ["title: ".data ++ t] else []
   | none => []) ++
  (match poem.poet with
   | some t => if !t.isEmpty then ["poet: ".data ++ t] else []
   | none => []) ++
  (if !poem.tags.isEmpty then ["tags: ".data ++ formatTags poem.tags]
   else []) ++
  ["layout: ".data ++ poem.layout,
   "size: ".data ++ poem.size,
   "numbered: ".data ++ (if poem.numbered then "true".data else "false".data)] ++
  (if !poem.annotations.isEmpty then
     ["annotations: ".data ++ stringifyJson (jarr poem.annotations)]
   else []) ++
  (match poem.legacyAnnotations with
   | some legacy =>
     if jsTruthy legacy && !(objKeys legacy).isEmpty then
       ["legacyAnnotations: ".data ++ stringifyJson legacy]
     else []
   | none => [])

/-- Model of AbyatParser.generatePoemMarkdown: fence, metadata, separator,
one line per verse, closing fence, joined with newlines. -/
def generatePoemMarkdown (poem : AbyatPoem) : JStr :=
  joinSep "\n".data
    (["```abyat".data] ++ addMetadataToLines poem ++ ["---".data] ++
     poem.verses.map (fun v => v.sadr ++ " | ".data ++ v.ajaz) ++
     ["```".data])

/-- Hemistich selector of an annotation span. -/
inductive VersePart where
  | sadr : VersePart
  | ajaz : VersePart
deriving DecidableEq

/-- Typed annotation record from types.ts, as the modal manipulates it.
The `gloss` field corresponds to the source field named annotation. -/
structure AbyatAnnot where
  id : JStr
  text : JStr
  gloss : JStr
  verseIndex : Nat
  part : VersePart
  startPos : Nat
  endPos : Nat
deriving DecidableEq

/-- The modal's selectedRange state. -/
structure SelRange where
  verseIndex : Nat
  part : VersePart
  startPos : Nat
  endPos : Nat
deriving DecidableEq

/-- The selectedRange captured by AbyatModal.editAnnotation from an
existing annotation. -/
def rangeOfAnnot (a : AbyatAnnot) : SelRange :=
  { verseIndex := a.verseIndex, part := a.part
    startPos := a.startPos, endPos := a.endPos }

/-- Overlap test used in AbyatModal.saveAnnotation, transcribed disjunct
for disjunct from the source. -/
def overlapCode (r : SelRange) (a : AbyatAnnot) : Bool :=
  (a.verseIndex = r.verseIndex) && (a.part = r.part) &&
  (((a.startPos ≥ r.startPos) && (a.startPos < r.endPos)) ||
   ((a.endPos > r.startPos) && (a.endPos ≤ r.endPos)) ||
   ((a.startPos ≤ r.startPos) && (a.endPos ≥ r.endPos)))

/-- Mutation of the first annotation found with the given id, as the
find-then-assign of the edit path of saveAnnotation does. -/
def updFirstGloss : List AbyatAnnot → JStr → JStr → List AbyatAnnot
  | [], _, _ => []
  | a :: as, eid, g =>
    if a.id = eid then { a with gloss := g } :: as
    else a :: updFirstGloss as eid g

/-- Model of AbyatModal.saveAnnotation.  The nondeterministic generated id
is passed in as `freshId`; the text and range of the current selection are
passed as `selText` and `selRange`.  The edit path is guarded by the
truthiness of existingId, so a missing id and an empty-string id both take
the eviction and insert path, as in the source. -/
def saveAnnot (anns : List AbyatAnnot) (selText : JStr)
    (selRange : Option SelRange) (glossText : JStr) (freshId : JStr)
    (existingId : Option JStr) : List AbyatAnnot :=
  if selText.isEmpty then anns
  else
    match selRange with
    | none => anns
    | some r =>
      let inserted :=
        let overlapping := anns.filter (overlapCode r)
        let remaining :=
          overlapping.foldl
            (fun acc o => acc.filter (fun a => !(a.id = o.id))) anns
        remaining ++
          [{ id := freshId, text := selText, gloss := glossText
             verseIndex := r.verseIndex, part := r.part
             startPos := r.startPos, endPos := r.endPos }]
      match existingId with
      | some eid =>
        if eid.isEmpty then inserted
        else updFirstGloss anns eid glossText
      | none => inserted

/-- Model of AbyatModal.deleteVerse on the poem state it touches: remove
the verse, drop its annotations, shift the later ones down. -/
def deleteVerse (verses : List AbyatVerse) (anns : List AbyatAnnot)
    (index : Nat) : List AbyatVerse × List AbyatAnnot :=
  (verses.eraseIdx index,
   (anns.filter (fun a => !(a.verseIndex = index))).map
     (fun a =>
       if index < a.verseIndex then { a with verseIndex := a.verseIndex - 1 }
       else a))

/-- Model of AbyatModal.moveVerse on the poem state it touches: swap the
two verses and re-point annotations referencing either index. -/
def moveVerse (verses : List AbyatVerse) (anns : List AbyatAnnot)
    (fromIndex toIndex : Nat) : List AbyatVerse × List AbyatAnnot :=
  let vFrom := verses.getD fromIndex ⟨[], []⟩
  let vTo := verses.getD toIndex ⟨[], []⟩
  ((verses.set fromIndex vTo).set toIndex vFrom,
   anns.map (fun a =>
     if a.verseIndex = fromIndex then { a with verseIndex := toIndex }
     else if a.verseIndex = toIndex then { a with verseIndex := fromIndex }
     else a))

/-- Model of AbyatModal.addTagFromInput: trim the input, reject empty or
already-present tags, append otherwise. -/
def addTagFromInput (tags : List JStr) (input : JStr) : List JStr :=
  let tagText := jsTrim input
  if !tagText.isEmpty && !tags.contains tagText then tags ++ [tagText]
  else tags

/-- Nodup check on object keys, used by the well-formedness predicate. -/
def keysNodup : List JStr → Bool
  | [] => true
  | k :: ks => !(decide (k ∈ ks)) && keysNodup ks

mutual
/-- Well-formedness of a JSON value for the stringify/parse round trip:
every object in it has pairwise distinct keys. -/
def goodJson : Json → Bool
  | jnull => true
  | jbool _ => true
  | jnum _ => true
  | jstr _ => true
  | jarr xs => goodArr xs
  | jobj fs => keysNodup (fs.map Prod.fst) && goodFields fs

/-- Well-formedness of the values of an array. -/
def goodArr : List Json → Bool
  | [] => true
  | x :: xs => goodJson x && goodArr xs

/-- Well-formedness of the values of an object field list. -/
def goodFields : List (JStr × Json) → Bool
  | [] => true
  | (_, v) :: fs => goodJson v && goodFields fs
end


/-! ### Specification-side definitions and concrete data for the claims -/

/-- The half-open overlap test of the spec: ranges [a,b) and [c,d)
overlap iff a < d and c < b, restricted to the same verse and part.
Modelled from the spec's words, to be compared with overlapCode. -/
def overlapSpec (r : SelRange) (a : AbyatAnnot) : Bool :=
  (a.verseIndex = r.verseIndex) && (a.part = r.part) &&
  (a.startPos < r.endPos) && (r.startPos < a.endPos)

/-- The annotation record saveAnnotation inserts for a selection. -/
def newAnnOf (r : SelRange) (selText g freshId : JStr) : AbyatAnnot :=
  { id := freshId, text := selText, gloss := g
    verseIndex := r.verseIndex, part := r.part
    startPos := r.startPos, endPos := r.endPos }

/-- The per-annotation effect of verse deletion as the spec words it:
drop at the deleted index, decrement above it, keep below it.
Modelled from the spec's words, to be compared with deleteVerse. -/
def deleteSpecAnn (k : Nat) (a : AbyatAnnot) : Option AbyatAnnot :=
  if a.verseIndex = k then none
  else if k < a.verseIndex then some { a with verseIndex := a.verseIndex - 1 }
  else some a

/-- The per-annotation re-pointing of a verse swap as the spec words it.
Modelled from the spec's words, to be compared with moveVerse. -/
def movePointSpec (i j : Nat) (a : AbyatAnnot) : AbyatAnnot :=
  if a.verseIndex = i then { a with verseIndex := j }
  else if a.verseIndex = j then { a with verseIndex := i }
  else a

/-- The per-annotation effect of the edit path: the record with the edited
id gets the new gloss, every other record is untouched. -/
def editSpec (eid g : JStr) (a : AbyatAnnot) : AbyatAnnot :=
  if a.id = eid then { a with gloss := g } else a

/-- Forget the generated id field of an annotation object, leaving the
positional content the spec speaks about. -/
def stripId : Json → Json
  | jobj fs => jobj (fs.filter (fun f => !(f.1 = "id".data)))
  | j => j

/-- The id-free positional annotation the legacy migration should emit
for one matched key. -/
def specAnnJson (word : JStr) (gloss : Json) (vi : Nat)
    (partName : JStr) (s e : Nat) : Json :=
  jobj [("text".data, jstr word),
        ("annotation".data, gloss),
        ("verseIndex".data, jnum vi),
        ("part".data, jstr partName),
        ("startPos".data, jnum s),
        ("endPos".data, jnum e)]

/-- Legacy migration of one hemistich as the spec words it: one positional
annotation per legacy key occurring in the hemistich, at its first
occurrence. Modelled from the spec's words. -/
def legacySpecPart (legacy : Json) (vi : Nat) (partName ptext : JStr) :
    List Json :=
  (objKeys legacy).filterMap (fun word =>
    (jsIndexOf ptext word).map (fun i =>
      specAnnJson word (objGetD legacy word) vi partName i
        (i + word.length)))

/-- Legacy migration of a whole poem as the spec words it: sadr then ajaz
of each verse in order. Modelled from the spec's words, to be compared
with convertLegacyAnnotations. -/
def legacySpec (legacy : Json) (verses : List AbyatVerse) : List Json :=
  (verses.enum.map (fun p =>
    legacySpecPart legacy p.1 "sadr".data p.2.sadr ++
    legacySpecPart legacy p.1 "ajaz".data p.2.ajaz)).flatten

/-- Concrete data: an existing [3,4) annotation in verse 0, sadr. -/
def c2Old : AbyatAnnot :=
  { id := "old".data, text := "كل".data, gloss := "شرح".data
    verseIndex := 0, part := VersePart.sadr, startPos := 3, endPos := 4 }

/-- Concrete data: a [2,5) selection in verse 0, sadr. -/
def c2Range : SelRange :=
  { verseIndex := 0, part := VersePart.sadr, startPos := 2, endPos := 5 }

/-- Concrete data: a three-verse poem. -/
def c3Verses : List AbyatVerse :=
  [⟨"س١".data, "ع١".data⟩, ⟨"س٢".data, "ع٢".data⟩, ⟨"س٣".data, "ع٣".data⟩]

/-- Concrete data: an annotation at a given verse index. -/
def c3Ann (n : Nat) (i : JStr) : AbyatAnnot :=
  { id := i, text := "ك".data, gloss := "ش".data
    verseIndex := n, part := VersePart.sadr, startPos := 0, endPos := 1 }

/-- Concrete data: a legacy-format document. -/
def c4src : JStr :=
  "legacyAnnotations: \x7b\"كلمة\": \"شرح\"\x7d\n---\nهنا كلمة | عجز".data

/-- Concrete data: the legacy object of c4src. -/
def c4legacy : Json := jobj [("كلمة".data, jstr "شرح".data)]

/-- Concrete data: a JSON array literal carrying an annotation whose
startPos exceeds its endPos and whose verseIndex points past the verses. -/
def c10arr : JStr :=
  ("[\x7b\"id\":\"x\",\"text\":\"ك\",\"annotation\":\"ش\"," ++
   "\"verseIndex\":5,\"part\":\"sadr\",\"startPos\":7,\"endPos\":3\x7d]").data

/-- Concrete data: a document whose only line is that array. -/
def c10src : JStr := "annotations: ".data ++ c10arr

/-- Concrete data: the parsed annotation object of c10arr. -/
def c10Ann : Json :=
  jobj [("id".data, jstr "x".data),
        ("text".data, jstr "ك".data),
        ("annotation".data, jstr "ش".data),
        ("verseIndex".data, jnum 5),
        ("part".data, jstr "sadr".data),
        ("startPos".data, jnum 7),
        ("endPos".data, jnum 3)]

/-- A concrete well-formed poem used as the round-trip example. -/
def testPoem : AbyatPoem :=
  { title := some "قصيدة".data
    poet := some "الشاعر".data
    tags := ["حب".data, "طبيعة".data]
    verses := [⟨"صدر الأول".data, "عجز الأول".data⟩, ⟨"س٢".data, "ع٢".data⟩]
    layout := "stacked".data
    size := "large".data
    numbered := true
    annotations := [Json.jobj [("id".data, Json.jstr "a1".data),
      ("text".data, Json.jstr "صدر".data),
      ("annotation".data, Json.jstr "شرح".data),
      ("verseIndex".data, Json.jnum 0),
      ("part".data, Json.jstr "sadr".data),
      ("startPos".data, Json.jnum 0),
      ("endPos".data, Json.jnum 3)]]
    legacyAnnotations := none }

/-! ### Basic character and digit lemmas -/

theorem char_ofNat_toNat_of_lt (c : Char) (h : c.toNat < 55296) :
    Char.ofNat c.toNat = c := by
  have hv : c.toNat.isValidChar := Or.inl h
  simp [Char.ofNat, hv]
  apply Char.ext
  apply UInt32.ext
  simp [Char.ofNatAux, Char.toNat, UInt32.toNat]

theorem digitChar_toNat (d : Nat) (h : d < 10) :
    (digitChar d).toNat = 48 + d := by
  interval_cases d <;> decide

theorem isDigitChar_digitChar (d : Nat) (h : d < 10) :
    isDigitChar (digitChar d) = true := by
  interval_cases d <;> decide

theorem digitChar_ne_of_not_digit (d : Nat) (h : d < 10) (c : Char)
    (hc : isDigitChar c = false) : digitChar d ≠ c := by
  intro he
  rw [← he, isDigitChar_digitChar d h] at hc
  exact Bool.true_eq_false.mp hc

theorem digit_not_ws (c : Char) (h : isDigitChar c = true) :
    jsonWs c = false := by
  cases hw : jsonWs c with
  | false => rfl
  | true =>
    exfalso
    simp only [jsonWs, Bool.or_eq_true, decide_eq_true_eq] at hw
    rcases hw with ((rfl | rfl) | rfl) | rfl <;> exact absurd h (by decide)

theorem digit_ne (c : Char) (h : isDigitChar c = true) (c' : Char)
    (hc' : isDigitChar c' = false) : c ≠ c' := by
  intro he; rw [he, hc'] at h; exact Bool.false_ne_true h

theorem hexVal_hexDigit (v : Nat) (h : v < 16) :
    hexVal (hexDigit v) = some v := by
  interval_cases v <;> decide

/-! ### Decimal digit string lemmas -/

/-- Mathematical specification of the decimal digit string, used only in
proofs of properties of natToDigits. -/
def digitsW (n : Nat) : JStr :=
  if _h : n < 10 then [digitChar n]
  else digitsW (n / 10) ++ [digitChar (n % 10)]
decreasing_by exact Nat.div_lt_self (by omega) (by omega)

theorem digitsW_small (n : Nat) (h : n < 10) : digitsW n = [digitChar n] := by
  rw [digitsW]; simp [h]

theorem digitsW_large (n : Nat) (h : ¬ n < 10) :
    digitsW n = digitsW (n / 10) ++ [digitChar (n % 10)] := by
  rw [digitsW]; simp [h]

theorem natToDigitsAux_eq :
    ∀ fuel n acc, n < fuel → natToDigitsAux fuel n acc = digitsW n ++ acc := by
  intro fuel
  induction fuel with
  | zero => intro n acc h; omega
  | succ f ih =>
    intro n acc h
    by_cases hn : n < 10
    · simp [natToDigitsAux, hn, digitsW_small n hn]
    · have h1 : n / 10 < n := Nat.div_lt_self (by omega) (by omega)
      simp only [natToDigitsAux, if_neg hn]
      rw [ih (n / 10) _ (by omega), digitsW_large n hn, List.append_assoc]
      rfl

theorem natToDigits_eq (n : Nat) : natToDigits n = digitsW n := by
  rw [natToDigits, natToDigitsAux_eq (n + 1) n [] (by omega), List.append_nil]

theorem digitsW_digits (n : Nat) :
    ∀ c ∈ digitsW n, isDigitChar c = true := by
  induction n using Nat.strong_induction_on with
  | _ n ih =>
    by_cases hn : n < 10
    · rw [digitsW_small n hn]
      intro c hc
      rw [List.mem_singleton] at hc
      rw [hc]; exact isDigitChar_digitChar n hn
    · rw [digitsW_large n hn]
      intro c hc
      rw [List.mem_append] at hc
      rcases hc with hc | hc
      · exact ih (n / 10) (Nat.div_lt_self (by omega) (by omega)) c hc
      · rw [List.mem_singleton] at hc
        rw [hc]; exact isDigitChar_digitChar _ (Nat.mod_lt n (by omega))

theorem digitsW_ne_nil (n : Nat) : digitsW n ≠ [] := by
  by_cases hn : n < 10
  · rw [digitsW_small n hn]; simp
  · rw [digitsW_large n hn]; simp

theorem digitsToNat_append_one (xs : JStr) (c : Char) :
    digitsToNat (xs ++ [c]) = digitsToNat xs * 10 + (c.toNat - 48) := by
  simp [digitsToNat, List.foldl_append]

theorem digitsToNat_digitsW (n : Nat) : digitsToNat (digitsW n) = n := by
  induction n using Nat.strong_induction_on with
  | _ n ih =>
    by_cases hn : n < 10
    · rw [digitsW_small n hn]
      simp [digitsToNat, digitChar_toNat n hn]
    · rw [digitsW_large n hn, digitsToNat_append_one,
        ih (n / 10) (Nat.div_lt_self (by omega) (by omega)),
        digitChar_toNat _ (Nat.mod_lt n (by omega))]
      omega

/-! ### Prefix, whitespace and number-parsing lemmas -/

theorem jsStartsWith_append_self :
    ∀ pre t : JStr, jsStartsWith pre (pre ++ t) = true := by
  intro pre
  induction pre with
  | nil => intro t; rfl
  | cons c cs ih => intro t; simp [jsStartsWith, ih]

theorem jsStartsWith_cons_ne (a b : Char) (as bs : JStr) (h : a ≠ b) :
    jsStartsWith (a :: as) (b :: bs) = false := by
  simp [jsStartsWith, h]

theorem skipWs_not_ws (c : Char) (r : JStr) (h : jsonWs c = false) :
    skipWs (c :: r) = c :: r := by
  simp [skipWs, List.dropWhile, h]

/-- Trailing context whose head cannot be mistaken for more digits. -/
def afterNotDigit : JStr → Prop
  | [] => True
  | c :: _ => isDigitChar c = false

theorem takeWhile_append_all (p : Char → Bool) :
    ∀ (xs rest : JStr), (∀ c ∈ xs, p c = true) →
      (∀ c t, rest = c :: t → p c = false) →
      (xs ++ rest).takeWhile p = xs ∧ (xs ++ rest).dropWhile p = rest := by
  intro xs
  induction xs with
  | nil =>
    intro rest _ hrest
    cases rest with
    | nil => simp
    | cons c t =>
      simp [List.takeWhile, List.dropWhile, hrest c t rfl]
  | cons x xs ih =>
    intro rest hall hrest
    have hx : p x = true := hall x (by simp)
    have := ih rest (fun c hc => hall c (by simp [hc])) hrest
    simp [List.takeWhile, List.dropWhile, hx, this.1, this.2]

theorem parseNum_digits (n : Int) (rest : JStr) (h : afterNotDigit rest) :
    parseNum (intToDigits n ++ rest) = some (n, rest) := by
  have hrest : ∀ c t, rest = c :: t → isDigitChar c = false := by
    intro c t he; rw [he] at h; exact h
  by_cases hn : n < 0
  · obtain ⟨hd⟩ : True := trivial
    rw [intToDigits, if_pos hn, natToDigits_eq]
    have htd := takeWhile_append_all isDigitChar (digitsW n.natAbs) rest
      (digitsW_digits n.natAbs) hrest
    have hne : digitsW n.natAbs ≠ [] := digitsW_ne_nil n.natAbs
    simp only [List.cons_append, parseNum, if_pos rfl]
    rw [htd.1, htd.2, if_neg hne, digitsToNat_digitsW]
    have : -(n.natAbs : Int) = n := by omega
    rw [this]
    simp
  · rw [intToDigits, if_neg hn, natToDigits_eq]
    obtain ⟨c, cs, hcs⟩ : ∃ c cs, digitsW n.natAbs = c :: cs := by
      cases hd : digitsW n.natAbs with
      | nil => exact absurd hd (digitsW_ne_nil n.natAbs)
      | cons c cs => exact ⟨c, cs, rfl⟩
    have hcdig : isDigitChar c = true :=
      digitsW_digits n.natAbs c (by rw [hcs]; simp)
    have hcne : c ≠ '-' := digit_ne c hcdig '-' (by decide)
    have htd := takeWhile_append_all isDigitChar (digitsW n.natAbs) rest
      (digitsW_digits n.natAbs) hrest
    rw [hcs] at htd ⊢
    simp only [List.cons_append, parseNum, if_neg hcne]
    rw [← List.cons_append, htd.1, htd.2]
    have hne : (c :: cs : JStr) ≠ [] := by simp
    rw [if_neg hne, ← hcs, digitsToNat_digitsW]
    have : (n.natAbs : Int) = n := by omega
    rw [this]

/-! ### String escaping round trip -/

theorem escBody_cons (c : Char) (s : JStr) :
    escBody (c :: s) = escapeChar c ++ escBody s := by
  simp [escBody]

theorem parseStrBody_quote (r : JStr) :
    parseStrBody ('"' :: r) = some ([], r) := by
  rw [parseStrBody.eq_def]
  simp

theorem parseStrBody_verbatim (c : Char) (r : JStr) (h1 : ¬ c = '"')
    (h2 : ¬ c = '\\') : parseStrBody (c :: r) = strCons c (parseStrBody r) := by
  rw [parseStrBody.eq_def]
  simp [h1, h2]

theorem parseStrBody_esc (e : Char) (r2 : JStr) (he : ¬ e = 'u') :
    parseStrBody ('\\' :: e :: r2) =
      match escCharOf e with
      | some c' => strCons c' (parseStrBody r2)
      | none => none := by
  rw [parseStrBody.eq_def]
  simp [he]

theorem parseStrBody_u (h1 h2 h3 h4 : Char) (r' : JStr) :
    parseStrBody ('\\' :: 'u' :: h1 :: h2 :: h3 :: h4 :: r') =
      match hexVal h1, hexVal h2, hexVal h3, hexVal h4 with
      | some a, some b, some c', some d =>
        strCons (Char.ofNat (((a * 16 + b) * 16 + c') * 16 + d))
          (parseStrBody r')
      | _, _, _, _ => none := by
  rw [parseStrBody.eq_def]
  simp

theorem parseStrBody_escBody :
    ∀ (s rest : JStr), parseStrBody (escBody s ++ '"' :: rest) = some (s, rest) := by
  intro s
  induction s with
  | nil => intro rest; simp [escBody, parseStrBody_quote]
  | cons c s ih =>
    intro rest
    rw [escBody_cons, List.append_assoc]
    by_cases h1 : c = '"'
    · subst h1
      have he : escapeChar '"' = ['\\', '"'] := by decide
      rw [he]
      simp only [List.cons_append, List.nil_append]
      rw [parseStrBody_esc _ _ (by decide)]
      simp [escCharOf, strCons, ih rest]
    · by_cases h2 : c = '\\'
      · subst h2
        have he : escapeChar '\\' = ['\\', '\\'] := by decide
        rw [he]
        simp only [List.cons_append, List.nil_append]
        rw [parseStrBody_esc _ _ (by decide)]
        simp [escCharOf, strCons, ih rest]
      · by_cases h3 : c = '\n'
        · subst h3
          have he : escapeChar '\n' = ['\\', 'n'] := by decide
          rw [he]
          simp only [List.cons_append, List.nil_append]
          rw [parseStrBody_esc _ _ (by decide)]
          simp [escCharOf, strCons, ih rest]
        · by_cases h4 : c = '\r'
          · subst h4
            have he : escapeChar '\r' = ['\\', 'r'] := by decide
            rw [he]
            simp only [List.cons_append, List.nil_append]
            rw [parseStrBody_esc _ _ (by decide)]
            simp [escCharOf, strCons, ih rest]
          · by_cases h5 : c = '\t'
            · subst h5
              have he : escapeChar '\t' = ['\\', 't'] := by decide
              rw [he]
              simp only [List.cons_append, List.nil_append]
              rw [parseStrBody_esc _ _ (by decide)]
              simp [escCharOf, strCons, ih rest]
            · by_cases h6 : c = '\x08'
              · subst h6
                have he : escapeChar '\x08' = ['\\', 'b'] := by decide
                rw [he]
                simp only [List.cons_append, List.nil_append]
                rw [parseStrBody_esc _ _ (by decide)]
                simp [escCharOf, strCons, ih rest]
              · by_cases h7 : c = '\x0c'
                · subst h7
                  have he : escapeChar '\x0c' = ['\\', 'f'] := by decide
                  rw [he]
                  simp only [List.cons_append, List.nil_append]
                  rw [parseStrBody_esc _ _ (by decide)]
                  simp [escCharOf, strCons, ih rest]
                · by_cases h8 : c.toNat < 32
                  · have he : escapeChar c =
                        ['\\', 'u', '0', '0', hexDigit (c.toNat / 16),
                         hexDigit (c.toNat % 16)] := by
                      simp [escapeChar, h1, h2, h3, h4, h5, h6, h7, h8]
                    rw [he]
                    simp only [List.cons_append, List.nil_append]
                    rw [parseStrBody_u]
                    have hh1 : hexVal (hexDigit (c.toNat / 16)) =
                        some (c.toNat / 16) := hexVal_hexDigit _ (by omega)
                    have hh2 : hexVal (hexDigit (c.toNat % 16)) =
                        some (c.toNat % 16) := hexVal_hexDigit _ (by omega)
                    rw [show hexVal '0' = some 0 from by decide, hh1, hh2]
                    have hv : ((0 * 16 + 0) * 16 + c.toNat / 16) * 16 +
                        c.toNat % 16 = c.toNat := by omega
                    simp only [hv, char_ofNat_toNat_of_lt c (by omega),
                      strCons, ih rest, Option.map_some]
                    rfl
                  · have he : escapeChar c = [c] := by
                      simp [escapeChar, h1, h2, h3, h4, h5, h6, h7, h8]
                    rw [he]
                    simp only [List.cons_append, List.nil_append]
                    rw [parseStrBody_verbatim c _ h1 h2]
                    simp [strCons, ih rest]

/-! ### Stringify head and insertField lemmas -/

theorem stringify_head (j : Json) :
    ∃ c cs, stringifyJson j = c :: cs ∧ jsonWs c = false ∧ c ≠ ']' ∧
      c ≠ '\x7d' := by
  cases j with
  | jnull => exact ⟨'n', _, rfl, by decide, by decide, by decide⟩
  | jbool b =>
    cases b with
    | true => exact ⟨'t', ['r', 'u', 'e'], rfl, by decide, by decide, by decide⟩
    | false =>
      exact ⟨'f', ['a', 'l', 's', 'e'], rfl, by decide, by decide, by decide⟩
  | jnum n =>
    by_cases hn : n < 0
    · refine ⟨'-', natToDigits n.natAbs, ?_, by decide, by decide, by decide⟩
      simp [stringifyJson, intToDigits, hn]
    · obtain ⟨c, cs, hcs⟩ : ∃ c cs, digitsW n.natAbs = c :: cs := by
        cases hd : digitsW n.natAbs with
        | nil => exact absurd hd (digitsW_ne_nil n.natAbs)
        | cons c cs => exact ⟨c, cs, rfl⟩
      have hcdig : isDigitChar c = true :=
        digitsW_digits n.natAbs c (by rw [hcs]; simp)
      refine ⟨c, cs, ?_, digit_not_ws c hcdig, digit_ne c hcdig ']' (by decide),
        digit_ne c hcdig '\x7d' (by decide)⟩
      simp [stringifyJson, intToDigits, hn, natToDigits_eq, hcs]
  | jstr s => exact ⟨'"', _, rfl, by decide, by decide, by decide⟩
  | jarr xs => exact ⟨'[', _, rfl, by decide, by decide, by decide⟩
  | jobj fs => exact ⟨'\x7b', _, rfl, by decide, by decide, by decide⟩

theorem stringify_length_pos (j : Json) : 0 < (stringifyJson j).length := by
  obtain ⟨c, cs, h, -, -, -⟩ := stringify_head j
  rw [h]; simp

theorem insertField_append (acc : List (JStr × Json)) (k : JStr) (v : Json)
    (h : ∀ f ∈ acc, f.1 ≠ k) : insertField acc k v = acc ++ [(k, v)] := by
  induction acc with
  | nil => rfl
  | cons f fs ih =>
    have hne : f.1 ≠ k := h f (by simp)
    simp only [insertField, if_neg hne, List.cons_append]
    rw [ih (fun g hg => h g (by simp [hg]))]

theorem foldl_insertField :
    ∀ (fs acc : List (JStr × Json)),
      keysNodup (fs.map Prod.fst) = true →
      (∀ f ∈ fs, ∀ g ∈ acc, g.1 ≠ f.1) →
      fs.foldl (fun a f => insertField a f.1 f.2) acc = acc ++ fs := by
  intro fs
  induction fs with
  | nil => intro acc _ _; simp
  | cons f fs ih =>
    intro acc hnd hdisj
    simp only [List.map_cons, keysNodup, Bool.and_eq_true, Bool.not_eq_true',
      decide_eq_false_iff_not] at hnd
    simp only [List.foldl_cons]
    rw [insertField_append acc f.1 f.2 (fun g hg => hdisj f (by simp) g hg)]
    rw [ih (acc ++ [(f.1, f.2)]) hnd.2]
    · simp
    · intro g hg e he
      rw [List.mem_append] at he
      rcases he with he | he
      · exact hdisj g (by simp [hg]) e he
      · rw [List.mem_singleton] at he
        rw [he]
        intro hee
        exact hnd.1 (hee ▸ (List.mem_map_of_mem Prod.fst hg))

/-! ### The JSON stringify/parse round trip -/

theorem sw_null (c : Char) (t : JStr) (h : ¬ ('n' : Char) = c) :
    jsStartsWith "null".data (c :: t) = false :=
  jsStartsWith_cons_ne 'n' c _ t h

theorem sw_true (c : Char) (t : JStr) (h : ¬ ('t' : Char) = c) :
    jsStartsWith "true".data (c :: t) = false :=
  jsStartsWith_cons_ne 't' c _ t h

theorem sw_false (c : Char) (t : JStr) (h : ¬ ('f' : Char) = c) :
    jsStartsWith "false".data (c :: t) = false :=
  jsStartsWith_cons_ne 'f' c _ t h

mutual
theorem parseVal_stringify :
    ∀ (j : Json), ∀ fp rest, goodJson j = true →
      (stringifyJson j).length < fp → afterNotDigit rest →
      parseVal fp (stringifyJson j ++ rest) = some (j, rest)
  | jnull => by
    intro fp rest _ hfp _
    match fp, hfp with
    | fp + 1, _ =>
      rw [parseVal]
      simp only [stringifyJson, List.cons_append, List.nil_append]
      rw [skipWs_not_ws 'n' _ (by decide)]
      rw [show jsStartsWith "null".data ('n' :: 'u' :: 'l' :: 'l' :: rest) = true from
        jsStartsWith_append_self "null".data rest]
      simp
  | jbool true => by
    intro fp rest _ hfp _
    match fp, hfp with
    | fp + 1, _ =>
      rw [parseVal]
      simp only [stringifyJson, if_true, List.cons_append, List.nil_append]
      rw [skipWs_not_ws 't' _ (by decide)]
      rw [sw_null 't' _ (by decide)]
      rw [show jsStartsWith "true".data ('t' :: 'r' :: 'u' :: 'e' :: rest) = true from
        jsStartsWith_append_self "true".data rest]
      simp
  | jbool false => by
    intro fp rest _ hfp _
    match fp, hfp with
    | fp + 1, _ =>
      rw [parseVal]
      simp only [stringifyJson, if_false, Bool.false_eq_true,
        List.cons_append, List.nil_append]
      rw [skipWs_not_ws 'f' _ (by decide)]
      rw [sw_null 'f' _ (by decide)]
      rw [sw_true 'f' _ (by decide)]
      rw [show jsStartsWith "false".data ('f' :: 'a' :: 'l' :: 's' :: 'e' :: rest) = true
        from jsStartsWith_append_self "false".data rest]
      simp
  | jnum n => by
    intro fp rest _ hfp hrest
    match fp, hfp with
    | fp + 1, _ =>
      rw [parseVal]
      by_cases hn : n < 0
      · have hs : stringifyJson (jnum n) = '-' :: natToDigits n.natAbs := by
          simp [stringifyJson, intToDigits, hn]
        rw [hs]
        simp only [List.cons_append]
        rw [skipWs_not_ws '-' _ (by decide)]
        rw [sw_null '-' _ (by decide), sw_true '-' _ (by decide),
          sw_false '-' _ (by decide)]
        simp only [Bool.false_eq_true, if_false]
        rw [if_neg (by decide : ¬ ('-' : Char) = '"')]
        rw [if_neg (by decide : ¬ ('-' : Char) = '[')]
        rw [if_neg (by decide : ¬ ('-' : Char) = '\x7b')]
        rw [show '-' :: (natToDigits n.natAbs ++ rest) = intToDigits n ++ rest
          from by simp [intToDigits, hn]]
        rw [parseNum_digits n rest hrest]
        rfl
      · obtain ⟨c, cs, hcs⟩ : ∃ c cs, digitsW n.natAbs = c :: cs := by
          cases hd : digitsW n.natAbs with
          | nil => exact absurd hd (digitsW_ne_nil n.natAbs)
          | cons c cs => exact ⟨c, cs, rfl⟩
        have hcdig : isDigitChar c = true :=
          digitsW_digits n.natAbs c (by rw [hcs]; simp)
        have hs : stringifyJson (jnum n) = c :: cs := by
          simp [stringifyJson, intToDigits, hn, natToDigits_eq, hcs]
        rw [hs]
        simp only [List.cons_append]
        rw [skipWs_not_ws c _ (digit_not_ws c hcdig)]
        rw [sw_null c _ (fun he => digit_ne c hcdig 'n' (by decide) he.symm)]
        rw [sw_true c _ (fun he => digit_ne c hcdig 't' (by decide) he.symm)]
        rw [sw_false c _ (fun he => digit_ne c hcdig 'f' (by decide) he.symm)]
        simp only [Bool.false_eq_true, if_false]
        rw [if_neg (digit_ne c hcdig '"' (by decide))]
        rw [if_neg (digit_ne c hcdig '[' (by decide))]
        rw [if_neg (digit_ne c hcdig '\x7b' (by decide))]
        rw [show c :: (cs ++ rest) = intToDigits n ++ rest from by
          rw [← List.cons_append, ← hcs, intToDigits, if_neg hn,
            natToDigits_eq]]
        rw [parseNum_digits n rest hrest]
        rfl
  | jstr s => by
    intro fp rest _ hfp _
    match fp, hfp with
    | fp + 1, _ =>
      rw [parseVal]
      have hs : stringifyJson (jstr s) ++ rest =
          '"' :: (escBody s ++ '"' :: rest) := by
        simp [stringifyJson, escapeString]
      rw [hs]
      rw [skipWs_not_ws '"' _ (by decide)]
      rw [sw_null '"' _ (by decide), sw_true '"' _ (by decide),
        sw_false '"' _ (by decide)]
      simp only [Bool.false_eq_true, if_false]
      simp only [if_true]
      rw [parseStrBody_escBody s rest]
      rfl
  | jarr xs => by
    intro fp rest hgood hfp _
    match fp, hfp with
    | fp + 1, hfp =>
      rw [parseVal]
      have hs : stringifyJson (jarr xs) ++ rest =
          '[' :: (stringifyArr xs ++ ']' :: rest) := by
        simp [stringifyJson]
      rw [hs]
      rw [skipWs_not_ws '[' _ (by decide)]
      rw [sw_null '[' _ (by decide), sw_true '[' _ (by decide),
        sw_false '[' _ (by decide)]
      simp only [Bool.false_eq_true, if_false]
      rw [if_neg (by decide : ¬ ('[' : Char) = '"')]
      simp only [if_true]
      cases xs with
      | nil =>
        simp only [stringifyArr, List.nil_append]
        rw [skipWs_not_ws ']' _ (by decide)]
        simp
      | cons x xs' =>
        obtain ⟨c0, t0, hx, hws0, hne0, _⟩ := stringify_head x
        have hsa : stringifyArr (x :: xs') ++ ']' :: rest =
            c0 :: (t0 ++
              (if xs'.isEmpty then [] else ',' :: stringifyArr xs') ++
              ']' :: rest) := by
          simp [stringifyArr, hx]
        rw [hsa]
        rw [skipWs_not_ws c0 _ hws0]
        have hgood' : goodArr (x :: xs') = true := by
          simpa [goodJson] using hgood
        have hfp' : (stringifyArr (x :: xs')).length + 1 < fp := by
          have := hfp
          simp only [stringifyJson, List.length_cons, List.length_append,
            List.length_singleton] at this
          omega
        have hpa := parseArr_stringify (x :: xs') fp rest (by simp) hgood' hfp'
        rw [hsa] at hpa
        split
        · next r2 heq =>
          injection heq with h1 _
          exact absurd h1 hne0
        · next =>
          rw [hpa]
          rfl
  | jobj fs => by
    intro fp rest hgood hfp _
    match fp, hfp with
    | fp + 1, hfp =>
      rw [parseVal]
      have hs : stringifyJson (jobj fs) ++ rest =
          '\x7b' :: (stringifyObj fs ++ '\x7d' :: rest) := by
        simp [stringifyJson]
      rw [hs]
      rw [skipWs_not_ws '\x7b' _ (by decide)]
      rw [sw_null '\x7b' _ (by decide), sw_true '\x7b' _ (by decide),
        sw_false '\x7b' _ (by decide)]
      simp only [Bool.false_eq_true, if_false]
      rw [if_neg (by decide : ¬ ('\x7b' : Char) = '"')]
      rw [if_neg (by decide : ¬ ('\x7b' : Char) = '[')]
      simp only [if_true]
      have hnd : keysNodup (fs.map Prod.fst) = true := by
        have := hgood
        simp only [goodJson, Bool.and_eq_true] at this
        exact this.1
      have hgf : goodFields fs = true := by
        have := hgood
        simp only [goodJson, Bool.and_eq_true] at this
        exact this.2
      cases fs with
      | nil =>
        simp only [stringifyObj, List.nil_append]
        rw [skipWs_not_ws '\x7d' _ (by decide)]
        simp
      | cons f fs' =>
        obtain ⟨k, v⟩ := f
        have hsk : stringifyObj ((k, v) :: fs') ++ '\x7d' :: rest =
            '"' :: (escBody k ++
              ('"' :: ':' :: (stringifyJson v ++
                (if fs'.isEmpty then [] else ',' :: stringifyObj fs') ++
                '\x7d' :: rest))) := by
          simp [stringifyObj, escapeString]
        rw [hsk]
        rw [skipWs_not_ws '"' _ (by decide)]
        have hfp' : (stringifyObj ((k, v) :: fs')).length + 1 < fp := by
          have := hfp
          simp only [stringifyJson, List.length_cons, List.length_append,
            List.length_singleton] at this
          omega
        have hpo := parseObj_stringify ((k, v) :: fs') fp rest [] (by simp)
          hgf hfp'
        rw [hsk] at hpo
        split
        · next r2 heq =>
          injection heq with h1 _
          exact absurd h1 (by decide)
        · next =>
          rw [hpo]
          rw [foldl_insertField ((k, v) :: fs') [] hnd (by simp)]
          simp

theorem parseArr_stringify :
    ∀ (xs : List Json), ∀ fp rest, xs ≠ [] → goodArr xs = true →
      (stringifyArr xs).length + 1 < fp →
      parseArrItems fp (stringifyArr xs ++ ']' :: rest) = some (xs, rest)
  | [] => by intro fp rest hne _ _; exact absurd rfl hne
  | x :: xs' => by
    intro fp rest _ hgood hfp
    have hg : goodJson x = true ∧ goodArr xs' = true := by
      simpa [goodArr, Bool.and_eq_true] using hgood
    match fp, hfp with
    | fp + 1, hfp =>
      rw [parseArrItems]
      cases xs' with
      | nil =>
        have hin : stringifyArr [x] ++ ']' :: rest =
            stringifyJson x ++ (']' :: rest) := by
          simp [stringifyArr]
        rw [hin]
        rw [parseVal_stringify x fp (']' :: rest) hg.1
          (by
            have := hfp
            simp only [stringifyArr, List.isEmpty_nil, if_true,
              List.append_nil] at this
            omega)
          (by exact (by decide : isDigitChar ']' = false))]
        simp [skipWs_not_ws ']' _ (by decide)]
      | cons y ys =>
        have hin : stringifyArr (x :: y :: ys) ++ ']' :: rest =
            stringifyJson x ++
              (',' :: (stringifyArr (y :: ys) ++ ']' :: rest)) := by
          simp [stringifyArr]
        rw [hin]
        have hlx := stringify_length_pos x
        have hlen : (stringifyArr (x :: y :: ys)).length =
            (stringifyJson x).length + 1 +
              (stringifyArr (y :: ys)).length := by
          simp [stringifyArr]
          omega
        rw [parseVal_stringify x fp _ hg.1 (by omega)
          (by exact (by decide : isDigitChar ',' = false))]
        simp only [skipWs_not_ws ',' _ (by decide)]
        simp [skipWs_not_ws ',' _ (by decide),
          parseArr_stringify (y :: ys) fp rest (by simp) hg.2 (by omega)]

theorem parseObj_stringify :
    ∀ (fs : List (JStr × Json)), ∀ fp rest acc, fs ≠ [] →
      goodFields fs = true → (stringifyObj fs).length + 1 < fp →
      parseObjItems fp (stringifyObj fs ++ '\x7d' :: rest) acc =
        some (fs.foldl (fun a f => insertField a f.1 f.2) acc, rest)
  | [] => by intro fp rest acc hne _ _; exact absurd rfl hne
  | (k, v) :: fs' => by
    intro fp rest acc _ hgood hfp
    have hg : goodJson v = true ∧ goodFields fs' = true := by
      simpa [goodFields, Bool.and_eq_true] using hgood
    match fp, hfp with
    | fp + 1, hfp =>
      rw [parseObjItems]
      have hlv := stringify_length_pos v
      have hek : 2 ≤ (escapeString k).length := by
        simp [escapeString]
      cases fs' with
      | nil =>
        have hsk : stringifyObj [(k, v)] ++ '\x7d' :: rest =
            '"' :: (escBody k ++
              '"' :: ':' :: (stringifyJson v ++ '\x7d' :: rest)) := by
          simp [stringifyObj, escapeString]
        have hlk : (stringifyObj [(k, v)]).length =
            (escapeString k).length + 1 + (stringifyJson v).length := by
          simp [stringifyObj]
          omega
        have hv := parseVal_stringify v fp ('\x7d' :: rest) hg.1
          (by omega) (by exact (by decide : isDigitChar '\x7d' = false))
        rw [hsk]
        simp [parseStrBody_escBody, hv, skipWs_not_ws, jsonWs]
      | cons f2 fs2 =>
        have hsk : stringifyObj ((k, v) :: f2 :: fs2) ++ '\x7d' :: rest =
            '"' :: (escBody k ++
              '"' :: ':' :: (stringifyJson v ++
                ',' :: (stringifyObj (f2 :: fs2) ++ '\x7d' :: rest))) := by
          simp [stringifyObj, escapeString]
        have hlk : (stringifyObj ((k, v) :: f2 :: fs2)).length =
            (escapeString k).length + 1 + (stringifyJson v).length + 1 +
              (stringifyObj (f2 :: fs2)).length := by
          simp [stringifyObj]
          omega
        have hv := parseVal_stringify v fp
          (',' :: (stringifyObj (f2 :: fs2) ++ '\x7d' :: rest)) hg.1
          (by omega) (by exact (by decide : isDigitChar ',' = false))
        have hpo := parseObj_stringify (f2 :: fs2) fp rest
          (insertField acc k v) (by simp) hg.2 (by omega)
        rw [hsk]
        simp [parseStrBody_escBody, hv, hpo, skipWs_not_ws, jsonWs]
end

/-- Round trip of the full codec entry points, for well-formed values. -/
theorem jsonParse_stringify (j : Json) (hg : goodJson j = true) :
    jsonParse (stringifyJson j) = some j := by
  rw [jsonParse]
  have h := parseVal_stringify j (2 * (stringifyJson j).length + 2) []
    hg (by omega) trivial
  rw [List.append_nil] at h
  rw [h]
  rfl

/-! ### Split and trim lemmas -/

theorem jsSplit_ne_nil (sep : Char) : ∀ s : JStr, jsSplit sep s ≠ [] := by
  intro s
  induction s with
  | nil => simp [jsSplit]
  | cons c cs ih =>
    by_cases h : c = sep
    · simp [jsSplit, h]
    · simp only [jsSplit, if_neg h]
      cases hs : jsSplit sep cs with
      | nil => simp
      | cons t ts => simp

theorem jsSplit_cons_sep (sep : Char) (y : JStr) :
    jsSplit sep (sep :: y) = [] :: jsSplit sep y := by
  simp [jsSplit]

theorem jsSplit_append_no_sep (sep : Char) :
    ∀ (x y : JStr) (h t : _), sep ∉ x → jsSplit sep y = h :: t →
      jsSplit sep (x ++ y) = (x ++ h) :: t := by
  intro x
  induction x with
  | nil => intro y h t _ hy; simpa using hy
  | cons c cs ih =>
    intro y h t hmem hy
    have hc : ¬ c = sep := by
      intro he; exact hmem (by simp [he])
    have := ih y h t (fun hm => hmem (by simp [hm])) hy
    simp only [List.cons_append, jsSplit, if_neg hc, List.append_eq, this]

theorem jsSplit_no_sep (sep : Char) (x : JStr) (hmem : sep ∉ x) :
    jsSplit sep x = [x] := by
  have := jsSplit_append_no_sep sep x [] [] [] hmem (by simp [jsSplit])
  simpa using this

theorem jsSplit_joinSep (sep : Char) :
    ∀ ls : List JStr, ls ≠ [] → (∀ l ∈ ls, sep ∉ l) →
      jsSplit sep (joinSep [sep] ls) = ls := by
  intro ls
  induction ls with
  | nil => intro h; exact absurd rfl h
  | cons x ls ih =>
    intro _ hall
    cases ls with
    | nil =>
      simp only [joinSep]
      exact jsSplit_no_sep sep x (hall x (by simp))
    | cons y ls' =>
      have hy := ih (by simp) (fun l hl => hall l (by simp [hl]))
      have hx : sep ∉ x := hall x (by simp)
      have : joinSep [sep] (x :: y :: ls') =
          x ++ (sep :: joinSep [sep] (y :: ls')) := by
        simp [joinSep]
      rw [this]
      rw [jsSplit_append_no_sep sep x (sep :: joinSep [sep] (y :: ls'))
        [] (jsSplit sep (joinSep [sep] (y :: ls'))) hx
        (jsSplit_cons_sep sep _)]
      rw [hy]
      simp

theorem jsSplit_length (sep : Char) :
    ∀ s : JStr, (jsSplit sep s).length = s.count sep + 1 := by
  intro s
  induction s with
  | nil => simp [jsSplit]
  | cons c cs ih =>
    by_cases h : c = sep
    · subst h
      simp [jsSplit, ih, List.count_cons]
    · simp only [jsSplit, if_neg h]
      cases hs : jsSplit sep cs with
      | nil => exact absurd hs (jsSplit_ne_nil sep cs)
      | cons t ts =>
        rw [hs] at ih
        simp only [List.length_cons] at ih ⊢
        rw [List.count_cons]
        have hb : (c == sep) = false := by
          simp
          exact h
        rw [hb]
        simp
        omega

theorem jsTrimLeft_cons_not_ws (c : Char) (t : JStr) (h : jsWs c = false) :
    jsTrimLeft (c :: t) = c :: t := by
  simp [jsTrimLeft, List.dropWhile, h]

theorem jsTrimLeft_cons_ws (c : Char) (t : JStr) (h : jsWs c = true) :
    jsTrimLeft (c :: t) = jsTrimLeft t := by
  simp [jsTrimLeft, List.dropWhile, h]

theorem jsTrim_cons_ws (c : Char) (t : JStr) (h : jsWs c = true) :
    jsTrim (c :: t) = jsTrim t := by
  rw [jsTrim, jsTrim, jsTrimLeft_cons_ws c t h]

theorem jsTrimLeft_append (s r : JStr) :
    jsTrimLeft (s ++ r) =
      if jsTrimLeft s = [] then jsTrimLeft r else jsTrimLeft s ++ r := by
  induction s with
  | nil => simp [jsTrimLeft]
  | cons c cs ih =>
    by_cases h : jsWs c
    · rw [List.cons_append, jsTrimLeft_cons_ws c _ h,
        jsTrimLeft_cons_ws c _ h, ih]
    · rw [List.cons_append,
        jsTrimLeft_cons_not_ws c _ (by simpa using h),
        jsTrimLeft_cons_not_ws c _ (by simpa using h)]
      simp

theorem jsTrimRight_append (x r : JStr) :
    jsTrimRight (x ++ r) =
      if jsTrimRight r = [] then jsTrimRight x else x ++ jsTrimRight r := by
  have h1 : (x ++ r).reverse = r.reverse ++ x.reverse := by simp
  rw [jsTrimRight, h1]
  show (jsTrimLeft (r.reverse ++ x.reverse)).reverse = _
  rw [jsTrimLeft_append]
  by_cases h : jsTrimLeft r.reverse = []
  · rw [if_pos h]
    have : jsTrimRight r = [] := by
      rw [jsTrimRight]
      show (jsTrimLeft r.reverse).reverse = []
      rw [h]; rfl
    rw [if_pos this]
    rfl
  · rw [if_neg h]
    have h2 : jsTrimRight r ≠ [] := by
      rw [jsTrimRight]
      show (jsTrimLeft r.reverse).reverse ≠ []
      simpa using h
    rw [if_neg h2]
    rw [List.reverse_append]
    simp [jsTrimRight, jsTrimLeft]

theorem jsTrimRight_snoc_ws (y : JStr) (c : Char) (h : jsWs c = true) :
    jsTrimRight (y ++ [c]) = jsTrimRight y := by
  rw [jsTrimRight_append]
  have : jsTrimRight [c] = [] := by
    simp [jsTrimRight, jsTrimLeft, List.dropWhile, h]
  rw [if_pos this]

theorem jsTrimRight_snoc_not_ws (y : JStr) (c : Char) (h : jsWs c = false) :
    jsTrimRight (y ++ [c]) = y ++ [c] := by
  rw [jsTrimRight_append]
  have : jsTrimRight [c] = [c] := by
    simp [jsTrimRight, jsTrimLeft, List.dropWhile, h]
  rw [this]
  simp

theorem jsTrim_snoc_ws (y : JStr) (c : Char) (h : jsWs c = true) :
    jsTrim (y ++ [c]) = jsTrim y := by
  rw [jsTrim, jsTrim, jsTrimLeft_append]
  by_cases hy : jsTrimLeft y = []
  · rw [if_pos hy, hy]
    simp [jsTrimLeft, List.dropWhile, h, jsTrimRight]
  · rw [if_neg hy, jsTrimRight_snoc_ws _ c h]

theorem jsTrim_space_cons (t : JStr) : jsTrim (' ' :: t) = jsTrim t :=
  jsTrim_cons_ws ' ' t (by decide)

theorem jsTrim_snoc_space (t : JStr) : jsTrim (t ++ [' ']) = jsTrim t :=
  jsTrim_snoc_ws t ' ' (by decide)

/-! ### Trim stability lemmas -/

theorem jsTrimRight_length_le (s : JStr) :
    (jsTrimRight s).length ≤ s.length := by
  rw [jsTrimRight]
  calc (s.reverse.dropWhile jsWs).reverse.length
      = (s.reverse.dropWhile jsWs).length := by simp
    _ ≤ s.reverse.length := (s.reverse.dropWhile_sublist jsWs).length_le
    _ = s.length := by simp

theorem jsTrim_length_le (s : JStr) : (jsTrim s).length ≤ s.length := by
  rw [jsTrim]
  calc (jsTrimRight (jsTrimLeft s)).length
      ≤ (jsTrimLeft s).length := jsTrimRight_length_le _
    _ ≤ s.length := ((s.dropWhile_sublist jsWs).length_le)

theorem stable_head_not_ws (c : Char) (t : JStr)
    (hs : jsTrim (c :: t) = c :: t) : jsWs c = false := by
  cases hw : jsWs c with
  | false => rfl
  | true =>
    exfalso
    have h1 : jsTrim (c :: t) = jsTrim t := jsTrim_cons_ws c t hw
    have h2 := jsTrim_length_le t
    rw [hs] at h1
    have : (c :: t).length = t.length + 1 := by simp
    rw [← h1] at h2
    omega

theorem stable_last_not_ws (y : JStr) (c : Char)
    (hs : jsTrim (y ++ [c]) = y ++ [c]) : jsWs c = false := by
  cases hw : jsWs c with
  | false => rfl
  | true =>
    exfalso
    have h1 : jsTrim (y ++ [c]) = jsTrim y := jsTrim_snoc_ws y c hw
    have h2 := jsTrim_length_le y
    rw [hs] at h1
    have : (y ++ [c]).length = y.length + 1 := by simp
    rw [← h1] at h2
    omega

theorem jsTrimLeft_of_stable (s : JStr) (hs : jsTrim s = s) :
    jsTrimLeft s = s := by
  cases s with
  | nil => rfl
  | cons c t => exact jsTrimLeft_cons_not_ws c t (stable_head_not_ws c t hs)

theorem jsTrimRight_of_stable (s : JStr) (hs : jsTrim s = s) :
    jsTrimRight s = s := by
  rcases List.eq_nil_or_concat s with h | ⟨y, c, h⟩
  · rw [h]; rfl
  · rw [List.concat_eq_append] at h
    subst h
    exact jsTrimRight_snoc_not_ws y c (stable_last_not_ws y c hs)

theorem jsTrim_of_parts (s : JStr) (h1 : jsTrimLeft s = s)
    (h2 : jsTrimRight s = s) : jsTrim s = s := by
  rw [jsTrim, h1, h2]

/-! ### Serialized verse line lemmas -/

theorem verse_line_trim (s a : JStr) (hs : jsTrim s = s) (ha : jsTrim a = a) :
    jsTrim (s ++ ' ' :: '|' :: ' ' :: a) =
      (if s.isEmpty then [] else s ++ [' ']) ++ '|' ::
        (if a.isEmpty then [] else ' ' :: a) := by
  have hL : jsTrimLeft (s ++ ' ' :: '|' :: ' ' :: a) =
      (if s.isEmpty then [] else s) ++
        (if s.isEmpty then ['|', ' '] ++ a else [' ', '|', ' '] ++ a) := by
    rw [jsTrimLeft_append]
    cases s with
    | nil =>
      simp only [List.isEmpty_nil, if_true]
      rw [show jsTrimLeft [] = [] from rfl, if_pos rfl]
      rw [show (' ' :: '|' :: ' ' :: a : JStr) = ' ' :: ('|' :: ' ' :: a)
        from rfl]
      rw [jsTrimLeft_cons_ws ' ' _ (by decide),
        jsTrimLeft_cons_not_ws '|' _ (by decide)]
      simp
    | cons c t =>
      rw [jsTrimLeft_of_stable _ hs]
      simp
  rw [jsTrim, hL]
  cases hse : s.isEmpty with
  | true =>
    have hs0 : s = [] := by cases s with | nil => rfl | cons c t => simp at hse
    subst hs0
    simp only [if_true, List.nil_append]
    cases hae : a.isEmpty with
    | true =>
      have ha0 : a = [] := by
        cases a with | nil => rfl | cons c t => simp at hae
      subst ha0
      decide
    | false =>
      simp only [Bool.false_eq_true, if_false]
      rcases List.eq_nil_or_concat a with h | ⟨y, c, h⟩
      · subst h; simp at hae
      · rw [List.concat_eq_append] at h
        subst h
        rw [show (['|', ' '] ++ (y ++ [c]) : JStr) =
          (['|', ' '] ++ y) ++ [c] from by simp]
        rw [jsTrimRight_snoc_not_ws _ c
          (stable_last_not_ws y c ha)]
        simp
  | false =>
    simp only [Bool.false_eq_true, if_false]
    cases hae : a.isEmpty with
    | true =>
      have ha0 : a = [] := by
        cases a with | nil => rfl | cons c t => simp at hae
      subst ha0
      rw [show (s ++ ([' ', '|', ' '] ++ ([] : JStr))) =
        ((s ++ [' ', '|']) ++ [' ']) from by simp]
      rw [jsTrimRight_snoc_ws _ ' ' (by decide)]
      rw [show (s ++ [' ', '|'] : JStr) = (s ++ [' ']) ++ ['|'] from by simp]
      rw [jsTrimRight_snoc_not_ws _ '|' (by decide)]
      simp
    | false =>
      simp only [Bool.false_eq_true, if_false]
      rcases List.eq_nil_or_concat a with h | ⟨y, c, h⟩
      · subst h; simp at hae
      · rw [List.concat_eq_append] at h
        subst h
        rw [show (s ++ ([' ', '|', ' '] ++ (y ++ [c])) : JStr) =
          ((s ++ ([' ', '|', ' '] ++ y)) ++ [c]) from by simp]
        rw [jsTrimRight_snoc_not_ws _ c (stable_last_not_ws y c ha)]
        simp

theorem verse_line_parts (s a : JStr) (hs : jsTrim s = s) (ha : jsTrim a = a)
    (hs' : '|' ∉ s) (ha' : '|' ∉ a) :
    (jsSplit '|' (jsTrim (s ++ ' ' :: '|' :: ' ' :: a))).map jsTrim =
      [s, a] := by
  rw [verse_line_trim s a hs ha]
  have hX : '|' ∉ (if s.isEmpty then [] else s ++ [' ']) := by
    by_cases hse : s.isEmpty
    · simp [hse]
    · simp only [hse, if_false, Bool.false_eq_true]
      intro hmem
      rw [List.mem_append] at hmem
      rcases hmem with h | h
      · exact hs' h
      · simp at h
  have hY : '|' ∉ (if a.isEmpty then [] else ' ' :: a) := by
    by_cases hae : a.isEmpty
    · simp [hae]
    · simp only [hae, if_false, Bool.false_eq_true]
      intro hmem
      rcases List.mem_cons.mp hmem with h | h
      · simp at h
      · exact ha' h
  rw [jsSplit_append_no_sep '|' _ _ []
    [if a.isEmpty then [] else ' ' :: a] hX
    (by
      rw [jsSplit_cons_sep]
      rw [jsSplit_no_sep '|' _ hY])]
  simp only [List.append_nil, List.map_cons, List.map_nil]
  congr 1
  · by_cases hse : s.isEmpty
    · have : s = [] := by
        cases s with | nil => rfl | cons c t => simp at hse
      subst this
      simp only [List.isEmpty_nil, if_true]
      decide
    · simp only [hse, if_false, Bool.false_eq_true]
      rw [jsTrim_snoc_space, hs]
  · congr 1
    by_cases hae : a.isEmpty
    · have : a = [] := by
        cases a with | nil => rfl | cons c t => simp at hae
      subst this
      simp only [List.isEmpty_nil, if_true]
      decide
    · simp only [hae, if_false, Bool.false_eq_true]
      rw [jsTrim_space_cons, ha]

theorem verse_line_pipe_mem (s a : JStr) (hs : jsTrim s = s)
    (ha : jsTrim a = a) :
    '|' ∈ jsTrim (s ++ ' ' :: '|' :: ' ' :: a) := by
  rw [verse_line_trim s a hs ha]
  rw [List.mem_append]
  right
  simp

/-! ### Line loop composition lemmas -/

theorem parseLines_meta_append (ls : List JStr) :
    ∀ (rest : List JStr) (p : AbyatPoem),
      (∀ l ∈ ls, jsTrim l ≠ "---".data) →
      parseLines (ls ++ rest) true p =
        parseLines rest true
          (ls.foldl (fun q l => parseMetadataLine (jsTrim l) q) p) := by
  induction ls with
  | nil => intro rest p _; rfl
  | cons l ls ih =>
    intro rest p h
    have hl : jsTrim l ≠ "---".data := h l (by simp)
    simp only [List.cons_append, parseLines, if_neg hl, if_pos rfl,
      List.foldl_cons]
    exact ih rest (parseMetadataLine (jsTrim l) p) (fun x hx => h x (by simp [hx]))

theorem parseLines_sep (rest : List JStr) (p : AbyatPoem) (b : Bool) :
    parseLines ("---".data :: rest) b p = parseLines rest false p := by
  have h : jsTrim "---".data = "---".data := by decide
  simp [parseLines, h]

theorem parseLines_verse_cons (l : JStr) (ls : List JStr) (p : AbyatPoem)
    (h1 : jsTrim l ≠ "---".data) (h2 : jsTrim l ≠ []) :
    parseLines (l :: ls) false p =
      parseLines ls false (parseVerseLine (jsTrim l) p) := by
  have h2' : (jsTrim l).isEmpty = false := by
    cases hl : jsTrim l with
    | nil => exact absurd hl h2
    | cons c t => rfl
  simp [parseLines, h1, h2']

theorem parseVerseLine_fence (p : AbyatPoem) :
    parseVerseLine "```".data p = p := rfl

theorem parseLines_fence_end (p : AbyatPoem) :
    parseLines ["```".data] false p = p := by
  have h1 : jsTrim "```".data = "```".data := by decide
  rw [show (["```".data] : List JStr) = "```".data :: [] from rfl]
  rw [parseLines_verse_cons _ _ p (by rw [h1]; decide) (by rw [h1]; decide)]
  rw [h1, parseVerseLine_fence]
  rfl

/-! ### Metadata line lemmas -/

theorem jsStartsWith_append_of_le :
    ∀ (pre x t : JStr), pre.length ≤ x.length →
      jsStartsWith pre (x ++ t) = jsStartsWith pre x := by
  intro pre
  induction pre with
  | nil => intro x t _; rfl
  | cons c cs ih =>
    intro x t h
    cases x with
    | nil => simp at h
    | cons b bs =>
      simp only [List.cons_append, jsStartsWith, List.append_eq]
      rw [ih bs t (by simpa using h)]

theorem pml_fence (p : AbyatPoem) :
    parseMetadataLine "```abyat".data p = p := rfl

theorem pml_title (t : JStr) (p : AbyatPoem) :
    parseMetadataLine ("title: ".data ++ t) p =
      { p with title := some (jsTrim t) } := by
  rw [parseMetadataLine,
    jsStartsWith_append_of_le "title:".data "title: ".data t (by decide),
    show jsStartsWith "title:".data "title: ".data = true from by decide]
  simp only [if_true]
  rw [show ("title: ".data ++ t : JStr).drop 6 = ' ' :: t from rfl,
    jsTrim_space_cons]

theorem pml_poet (t : JStr) (p : AbyatPoem) :
    parseMetadataLine ("poet: ".data ++ t) p =
      { p with poet := some (jsTrim t) } := by
  rw [parseMetadataLine,
    jsStartsWith_append_of_le "title:".data "poet: ".data t (by decide),
    show jsStartsWith "title:".data "poet: ".data = false from by decide,
    jsStartsWith_append_of_le "poet:".data "poet: ".data t (by decide),
    show jsStartsWith "poet:".data "poet: ".data = true from by decide]
  simp only [Bool.false_eq_true, if_false, if_true]
  rw [show ("poet: ".data ++ t : JStr).drop 5 = ' ' :: t from rfl,
    jsTrim_space_cons]

theorem pml_tags (t : JStr) (p : AbyatPoem) :
    parseMetadataLine ("tags: ".data ++ t) p =
      { p with tags := parseTags (jsTrim t) } := by
  rw [parseMetadataLine,
    jsStartsWith_append_of_le "title:".data "tags: ".data t (by decide),
    show jsStartsWith "title:".data "tags: ".data = false from by decide,
    jsStartsWith_append_of_le "poet:".data "tags: ".data t (by decide),
    show jsStartsWith "poet:".data "tags: ".data = false from by decide,
    jsStartsWith_append_of_le "tags:".data "tags: ".data t (by decide),
    show jsStartsWith "tags:".data "tags: ".data = true from by decide]
  simp only [Bool.false_eq_true, if_false, if_true]
  rw [show ("tags: ".data ++ t : JStr).drop 5 = ' ' :: t from rfl,
    jsTrim_space_cons]

theorem pml_layout (t : JStr) (p : AbyatPoem) :
    parseMetadataLine ("layout: ".data ++ t) p =
      (if jsTrim t = "side-by-side".data ∨ jsTrim t = "stacked".data then
        { p with layout := jsTrim t }
      else p) := by
  rw [parseMetadataLine,
    jsStartsWith_append_of_le "title:".data "layout: ".data t (by decide),
    show jsStartsWith "title:".data "layout: ".data = false from by decide,
    jsStartsWith_append_of_le "poet:".data "layout: ".data t (by decide),
    show jsStartsWith "poet:".data "layout: ".data = false from by decide,
    jsStartsWith_append_of_le "tags:".data "layout: ".data t (by decide),
    show jsStartsWith "tags:".data "layout: ".data = false from by decide,
    jsStartsWith_append_of_le "layout:".data "layout: ".data t (by decide),
    show jsStartsWith "layout:".data "layout: ".data = true from by decide]
  simp only [Bool.false_eq_true, if_false, if_true]
  rw [show ("layout: ".data ++ t : JStr).drop 7 = ' ' :: t from rfl,
    jsTrim_space_cons]

theorem pml_size (t : JStr) (p : AbyatPoem) :
    parseMetadataLine ("size: ".data ++ t) p =
      (if jsTrim t = "small".data ∨ jsTrim t = "medium".data ∨
          jsTrim t = "large".data then
        { p with size := jsTrim t }
      else p) := by
  rw [parseMetadataLine,
    jsStartsWith_append_of_le "title:".data "size: ".data t (by decide),
    show jsStartsWith "title:".data "size: ".data = false from by decide,
    jsStartsWith_append_of_le "poet:".data "size: ".data t (by decide),
    show jsStartsWith "poet:".data "size: ".data = false from by decide,
    jsStartsWith_append_of_le "tags:".data "size: ".data t (by decide),
    show jsStartsWith "tags:".data "size: ".data = false from by decide,
    show jsStartsWith "layout:".data ("size: ".data ++ t) = false from
      jsStartsWith_cons_ne 'l' 's' _ _ (by decide),
    jsStartsWith_append_of_le "size:".data "size: ".data t (by decide),
    show jsStartsWith "size:".data "size: ".data = true from by decide]
  simp only [Bool.false_eq_true, if_false, if_true]
  rw [show ("size: ".data ++ t : JStr).drop 5 = ' ' :: t from rfl,
    jsTrim_space_cons]

theorem pml_numbered (t : JStr) (p : AbyatPoem) :
    parseMetadataLine ("numbered: ".data ++ t) p =
      { p with numbered := jsTrim t = "true".data } := by
  rw [parseMetadataLine,
    jsStartsWith_append_of_le "title:".data "numbered: ".data t (by decide),
    show jsStartsWith "title:".data "numbered: ".data = false from by decide,
    jsStartsWith_append_of_le "poet:".data "numbered: ".data t (by decide),
    show jsStartsWith "poet:".data "numbered: ".data = false from by decide,
    jsStartsWith_append_of_le "tags:".data "numbered: ".data t (by decide),
    show jsStartsWith "tags:".data "numbered: ".data = false from by decide,
    jsStartsWith_append_of_le "layout:".data "numbered: ".data t (by decide),
    show jsStartsWith "layout:".data "numbered: ".data = false from by decide,
    jsStartsWith_append_of_le "size:".data "numbered: ".data t (by decide),
    show jsStartsWith "size:".data "numbered: ".data = false from by decide,
    jsStartsWith_append_of_le "numbered:".data "numbered: ".data t
      (by decide),
    show jsStartsWith "numbered:".data "numbered: ".data = true from
      by decide]
  simp only [Bool.false_eq_true, if_false, if_true]
  rw [show ("numbered: ".data ++ t : JStr).drop 9 = ' ' :: t from rfl,
    jsTrim_space_cons]

theorem pml_annots (t : JStr) (p : AbyatPoem) :
    parseMetadataLine ("annotations: ".data ++ t) p =
      (match jsonParse (jsTrim t) with
       | some (jarr xs) => { p with annotations := xs }
       | some _ => p
       | none => { p with annotations := [] }) := by
  rw [parseMetadataLine,
    jsStartsWith_append_of_le "title:".data "annotations: ".data t
      (by decide),
    show jsStartsWith "title:".data "annotations: ".data = false from
      by decide,
    jsStartsWith_append_of_le "poet:".data "annotations: ".data t (by decide),
    show jsStartsWith "poet:".data "annotations: ".data = false from
      by decide,
    jsStartsWith_append_of_le "tags:".data "annotations: ".data t (by decide),
    show jsStartsWith "tags:".data "annotations: ".data = false from
      by decide,
    jsStartsWith_append_of_le "layout:".data "annotations: ".data t
      (by decide),
    show jsStartsWith "layout:".data "annotations: ".data = false from
      by decide,
    jsStartsWith_append_of_le "size:".data "annotations: ".data t (by decide),
    show jsStartsWith "size:".data "annotations: ".data = false from
      by decide,
    jsStartsWith_append_of_le "numbered:".data "annotations: ".data t
      (by decide),
    show jsStartsWith "numbered:".data "annotations: ".data = false from
      by decide,
    jsStartsWith_append_of_le "annotations:".data "annotations: ".data t
      (by decide),
    show jsStartsWith "annotations:".data "annotations: ".data = true from
      by decide]
  simp only [Bool.false_eq_true, if_false, if_true]
  rw [show ("annotations: ".data ++ t : JStr).drop 12 = ' ' :: t from rfl,
    jsTrim_space_cons]

theorem pml_legacy (t : JStr) (p : AbyatPoem) :
    parseMetadataLine ("legacyAnnotations: ".data ++ t) p =
      (match jsonParse (jsTrim t) with
       | some j => { p with legacyAnnotations := some j }
       | none => p) := by
  rw [parseMetadataLine,
    jsStartsWith_append_of_le "title:".data "legacyAnnotations: ".data t
      (by decide),
    show jsStartsWith "title:".data "legacyAnnotations: ".data = false from
      by decide,
    jsStartsWith_append_of_le "poet:".data "legacyAnnotations: ".data t
      (by decide),
    show jsStartsWith "poet:".data "legacyAnnotations: ".data = false from
      by decide,
    jsStartsWith_append_of_le "tags:".data "legacyAnnotations: ".data t
      (by decide),
    show jsStartsWith "tags:".data "legacyAnnotations: ".data = false from
      by decide,
    jsStartsWith_append_of_le "layout:".data "legacyAnnotations: ".data t
      (by decide),
    show jsStartsWith "layout:".data "legacyAnnotations: ".data = false from
      by decide,
    jsStartsWith_append_of_le "size:".data "legacyAnnotations: ".data t
      (by decide),
    show jsStartsWith "size:".data "legacyAnnotations: ".data = false from
      by decide,
    jsStartsWith_append_of_le "numbered:".data "legacyAnnotations: ".data t
      (by decide),
    show jsStartsWith "numbered:".data "legacyAnnotations: ".data = false from
      by decide,
    jsStartsWith_append_of_le "annotations:".data "legacyAnnotations: ".data t
      (by decide),
    show jsStartsWith "annotations:".data "legacyAnnotations: ".data = false
      from by decide,
    jsStartsWith_append_of_le "legacyAnnotations:".data
      "legacyAnnotations: ".data t (by decide),
    show jsStartsWith "legacyAnnotations:".data "legacyAnnotations: ".data =
      true from by decide]
  simp only [Bool.false_eq_true, if_false, if_true]
  rw [show ("legacyAnnotations: ".data ++ t : JStr).drop 18 = ' ' :: t from
    rfl, jsTrim_space_cons]

/-! ### Stability of serialized lines -/

theorem meta_line_stable (x t : JStr) (hx : jsTrimLeft x = x) (hxne : x ≠ [])
    (ht : jsTrim t = t) (htne : t ≠ []) : jsTrim (x ++ t) = x ++ t := by
  rw [jsTrim, jsTrimLeft_append, hx, if_neg hxne, jsTrimRight_append,
    jsTrimRight_of_stable t ht, if_neg htne]

theorem line_ne_dashes (c : Char) (x' t : JStr) (hc : c ≠ '-') :
    (c :: x') ++ t ≠ "---".data := by
  intro h
  rw [List.cons_append] at h
  have : c = '-' := by
    have := congrArg (fun l => l.headD ' ') h
    simpa using this
  exact hc this

theorem hexDigit_ne_newline (v : Nat) (hv : v < 16) : hexDigit v ≠ '\n' := by
  interval_cases v <;> decide

theorem escChar_no_newline (c : Char) : '\n' ∉ escapeChar c := by
  rw [escapeChar]
  by_cases h1 : c = '"'
  · simp [h1]
  · rw [if_neg h1]
    by_cases h2 : c = '\\'
    · simp [h2]
    · rw [if_neg h2]
      by_cases h3 : c = '\n'
      · simp [h3]
      · rw [if_neg h3]
        by_cases h4 : c = '\r'
        · simp [h4]
        · rw [if_neg h4]
          by_cases h5 : c = '\t'
          · simp [h5]
          · rw [if_neg h5]
            by_cases h6 : c = '\x08'
            · simp [h6]
            · rw [if_neg h6]
              by_cases h7 : c = '\x0c'
              · simp [h7]
              · rw [if_neg h7]
                by_cases h8 : c.toNat < 32
                · rw [if_pos h8]
                  intro hmem
                  simp only [List.mem_cons, List.not_mem_nil, or_false]
                    at hmem
                  rcases hmem with h | h | h | h | h | h
                  · simp at h
                  · simp at h
                  · simp at h
                  · simp at h
                  · exact hexDigit_ne_newline (c.toNat / 16) (by omega) h.symm
                  · exact hexDigit_ne_newline (c.toNat % 16) (by omega) h.symm
                · rw [if_neg h8]
                  intro hmem
                  rw [List.mem_singleton] at hmem
                  exact h3 hmem.symm

theorem escBody_no_newline (s : JStr) : '\n' ∉ escBody s := by
  induction s with
  | nil => simp [escBody]
  | cons c cs ih =>
    rw [escBody_cons]
    intro hmem
    rcases List.mem_append.mp hmem with h | h
    · exact escChar_no_newline c h
    · exact ih h

theorem escString_no_newline (s : JStr) : '\n' ∉ escapeString s := by
  rw [escapeString]
  intro hmem
  simp only [List.mem_cons, List.mem_append, List.mem_singleton] at hmem
  rcases hmem with (h | h) | h | h
  · simp at h
  · exact escBody_no_newline s h
  · simp at h
  · simp at h

mutual
theorem stringify_no_newline : ∀ j : Json, '\n' ∉ stringifyJson j
  | jnull => by simp [stringifyJson]
  | jbool b => by cases b <;> simp [stringifyJson]
  | jnum n => by
    intro hmem
    rw [stringifyJson, intToDigits] at hmem
    by_cases hn : n < 0
    · rw [if_pos hn] at hmem
      rcases List.mem_cons.mp hmem with h | h
      · simp at h
      · rw [natToDigits_eq] at h
        have := digitsW_digits n.natAbs '\n' h
        simp [isDigitChar] at this
    · rw [if_neg hn, natToDigits_eq] at hmem
      have := digitsW_digits n.natAbs '\n' hmem
      simp [isDigitChar] at this
  | jstr s => by
    intro hmem
    rw [stringifyJson] at hmem
    exact escString_no_newline s hmem
  | jarr xs => by
    intro hmem
    rw [stringifyJson] at hmem
    simp only [List.mem_cons, List.mem_append, List.mem_singleton] at hmem
    rcases hmem with (h | h) | h | h
    · simp at h
    · exact stringifyArr_no_newline xs h
    · simp at h
    · simp at h
  | jobj fs => by
    intro hmem
    rw [stringifyJson] at hmem
    simp only [List.mem_cons, List.mem_append, List.mem_singleton] at hmem
    rcases hmem with (h | h) | h | h
    · simp at h
    · exact stringifyObj_no_newline fs h
    · simp at h
    · simp at h

theorem stringifyArr_no_newline : ∀ xs : List Json, '\n' ∉ stringifyArr xs
  | [] => by simp [stringifyArr]
  | x :: xs => by
    intro hmem
    rw [stringifyArr] at hmem
    rcases List.mem_append.mp hmem with h | h
    · exact stringify_no_newline x h
    · by_cases he : xs.isEmpty
      · rw [if_pos he] at h; simp at h
      · rw [if_neg he] at h
        rcases List.mem_cons.mp h with h | h
        · simp at h
        · exact stringifyArr_no_newline xs h

theorem stringifyObj_no_newline :
    ∀ fs : List (JStr × Json), '\n' ∉ stringifyObj fs
  | [] => by simp [stringifyObj]
  | (k, v) :: fs => by
    intro hmem
    rw [stringifyObj] at hmem
    simp only [List.mem_append, List.mem_cons] at hmem
    rcases hmem with (h | h | h) | h
    · exact escString_no_newline k h
    · simp at h
    · exact stringify_no_newline v h
    · by_cases he : fs.isEmpty
      · rw [if_pos he] at h; simp at h
      · rw [if_neg he] at h
        rcases List.mem_cons.mp h with h | h
        · simp at h
        · exact stringifyObj_no_newline fs h
end

/-! ### Tag join and round trip lemmas -/

theorem joinSep_ne_nil (sep : JStr) (x : JStr) (xs : List JStr)
    (hx : x ≠ []) : joinSep sep (x :: xs) ≠ [] := by
  cases xs with
  | nil => simpa [joinSep] using hx
  | cons y ys =>
    rw [joinSep]
    intro h
    rcases List.append_eq_nil.mp h with ⟨h1, -⟩
    rcases List.append_eq_nil.mp h1 with ⟨h2, -⟩
    exact hx h2

theorem joinSep_stable :
    ∀ tags : List JStr, (∀ tg ∈ tags, tg ≠ [] ∧ jsTrim tg = tg) →
      tags ≠ [] →
      jsTrim (joinSep "، ".data tags) = joinSep "، ".data tags := by
  intro tags
  induction tags with
  | nil => intro _ h; exact absurd rfl h
  | cons x xs ih =>
    intro hall _
    obtain ⟨hxne, hxst⟩ := hall x (by simp)
    cases xs with
    | nil => simpa [joinSep] using hxst
    | cons y ys =>
      have hj := ih (fun tg htg => hall tg (by simp [htg])) (by simp)
      have hjne : joinSep "، ".data (y :: ys) ≠ [] :=
        joinSep_ne_nil _ y ys (hall y (by simp)).1
      rw [joinSep]
      apply jsTrim_of_parts
      · rw [List.append_assoc, jsTrimLeft_append,
          jsTrimLeft_of_stable x hxst, if_neg hxne]
      · rw [jsTrimRight_append, jsTrimRight_of_stable _ hj, if_neg hjne]

theorem jsSplit2_cons_no_sep (s1 s2 c : Char) (s : JStr) (h t : _)
    (hc1 : ¬ c = s1) (hc2 : ¬ c = s2) (hs : jsSplit2 s1 s2 s = h :: t) :
    jsSplit2 s1 s2 (c :: s) = (c :: h) :: t := by
  have : (c = s1 || c = s2) = false := by
    simp [hc1, hc2]
  simp only [jsSplit2, this, Bool.false_eq_true, if_false, hs]

theorem jsSplit2_append_no_sep (s1 s2 : Char) :
    ∀ (x y : JStr) (h t : _), s1 ∉ x → s2 ∉ x →
      jsSplit2 s1 s2 y = h :: t →
      jsSplit2 s1 s2 (x ++ y) = (x ++ h) :: t := by
  intro x
  induction x with
  | nil => intro y h t _ _ hy; simpa using hy
  | cons c cs ih =>
    intro y h t hm1 hm2 hy
    have h1 : ¬ c = s1 := fun he => hm1 (by simp [he])
    have h2 : ¬ c = s2 := fun he => hm2 (by simp [he])
    rw [List.cons_append]
    exact jsSplit2_cons_no_sep s1 s2 c (cs ++ y) (cs ++ h) t h1 h2
      (ih y h t (fun hm => hm1 (by simp [hm])) (fun hm => hm2 (by simp [hm]))
        hy)

theorem jsSplit2_nil (s1 s2 : Char) : jsSplit2 s1 s2 [] = [[]] := rfl

theorem jsSplit2_ne_nil (s1 s2 : Char) : ∀ s : JStr, jsSplit2 s1 s2 s ≠ [] := by
  intro s
  induction s with
  | nil => simp [jsSplit2]
  | cons c cs ih =>
    by_cases h : (c = s1 || c = s2) = true
    · simp [jsSplit2, h]
    · simp only [jsSplit2, h, Bool.false_eq_true, if_false]
      cases hs : jsSplit2 s1 s2 cs with
      | nil => simp
      | cons t ts => simp

theorem jsSplit2_no_sep (s1 s2 : Char) (x : JStr) (hm1 : s1 ∉ x)
    (hm2 : s2 ∉ x) : jsSplit2 s1 s2 x = [x] := by
  have := jsSplit2_append_no_sep s1 s2 x [] [] [] hm1 hm2 (jsSplit2_nil s1 s2)
  simpa using this

theorem parseTagsComma_joinSep :
    ∀ tags : List JStr,
      (∀ tg ∈ tags, tg ≠ [] ∧ jsTrim tg = tg ∧ ',' ∉ tg ∧ '،' ∉ tg) →
      tags ≠ [] → parseTagsComma (joinSep "، ".data tags) = tags := by
  intro tags
  induction tags with
  | nil => intro _ h; exact absurd rfl h
  | cons x xs ih =>
    intro hall _
    obtain ⟨hxne, hxst, hxc1, hxc2⟩ := hall x (by simp)
    cases xs with
    | nil =>
      rw [joinSep, parseTagsComma,
        jsSplit2_no_sep '،' ',' x hxc2 hxc1]
      simp only [List.map_cons, List.map_nil, hxst, List.filter]
      have : x.isEmpty = false := by
        cases x with
        | nil => exact absurd rfl hxne
        | cons c t => rfl
      simp [this]
    | cons y ys =>
      have hih := ih (fun tg htg => hall tg (List.mem_cons_of_mem x htg))
        (by simp)
      rw [joinSep]
      obtain ⟨h', t', hsplit⟩ :
          ∃ h' t', jsSplit2 '،' ',' (joinSep "، ".data (y :: ys)) =
            h' :: t' := by
        cases hs : jsSplit2 '،' ',' (joinSep "، ".data (y :: ys)) with
        | nil => exact absurd hs (jsSplit2_ne_nil '،' ',' _)
        | cons h' t' => exact ⟨h', t', rfl⟩
      rw [show (x ++ "، ".data ++ joinSep "، ".data (y :: ys) : JStr) =
        x ++ ('،' :: ' ' :: joinSep "، ".data (y :: ys)) from by simp]
      have hstep1 : jsSplit2 '،' ','
          ('،' :: ' ' :: joinSep "، ".data (y :: ys)) =
          [] :: (' ' :: h') :: t' := by
        rw [show jsSplit2 '،' ',' ('،' :: ' ' :: joinSep "، ".data (y :: ys))
          = [] :: jsSplit2 '،' ',' (' ' :: joinSep "، ".data (y :: ys)) from
          by simp [jsSplit2]]
        rw [jsSplit2_cons_no_sep '،' ',' ' ' _ h' t' (by decide) (by decide)
          hsplit]
      rw [parseTagsComma,
        jsSplit2_append_no_sep '،' ',' x _ [] ((' ' :: h') :: t') hxc2 hxc1
          hstep1]
      rw [parseTagsComma] at hih
      rw [hsplit] at hih
      simp only [List.map_cons, List.append_nil] at hih ⊢
      rw [jsTrim_space_cons]
      simp only [List.filter] at hih ⊢
      rw [hxst]
      have hxe : x.isEmpty = false := by
        cases x with
        | nil => exact absurd rfl hxne
        | cons c t => rfl
      simp only [Bool.not_eq_true', hxe, Bool.not_false]
      rw [hih]

theorem parseTags_formatTags (tags : List JStr)
    (hall : ∀ tg ∈ tags, tg ≠ [] ∧ jsTrim tg = tg ∧ ',' ∉ tg ∧ '،' ∉ tg)
    (hbr : (jsStartsWith "[".data (formatTags tags) &&
      jsEndsWith "]".data (formatTags tags)) = false) :
    parseTags (formatTags tags) = tags := by
  cases tags with
  | nil => rfl
  | cons x xs =>
    have hxne : x ≠ [] := (hall x (by simp)).1
    have hne : formatTags (x :: xs) = joinSep "، ".data (x :: xs) := by
      simp [formatTags]
    rw [hne] at hbr ⊢
    have hjoin_ne : joinSep "، ".data (x :: xs) ≠ [] :=
      joinSep_ne_nil _ x xs hxne
    have hje : (joinSep "، ".data (x :: xs)).isEmpty = false := by
      cases hj : joinSep "، ".data (x :: xs) with
      | nil => exact absurd hj hjoin_ne
      | cons c t => rfl
    rw [parseTags, hje, hbr]
    simp only [Bool.false_eq_true, if_false]
    exact parseTagsComma_joinSep (x :: xs) hall (by simp)

theorem goodArr_map_jstr : ∀ l : List JStr, goodArr (l.map jstr) = true := by
  intro l
  induction l with
  | nil => rfl
  | cons x xs ih => simp [goodArr, goodJson, ih]

theorem filterMap_jstr : ∀ l : List JStr,
    List.filterMap
      (fun j => match j with | jstr s => some s | _ => none)
      (List.map jstr l) = l := by
  intro l
  induction l with
  | nil => rfl
  | cons x xs ih => simp [List.filterMap_cons, ih]

theorem parseTags_json (tags : List JStr) :
    parseTags (stringifyJson (jarr (tags.map jstr))) = tags := by
  have hs : stringifyJson (jarr (tags.map jstr)) =
      '[' :: (stringifyArr (tags.map jstr) ++ [']']) := by
    simp [stringifyJson]
  have hje : (stringifyJson (jarr (tags.map jstr))).isEmpty = false := by
    rw [hs]; rfl
  have hsw : jsStartsWith "[".data (stringifyJson (jarr (tags.map jstr))) =
      true := by
    rw [hs]
    simp [jsStartsWith]
  have hew : jsEndsWith "]".data (stringifyJson (jarr (tags.map jstr))) =
      true := by
    rw [hs, jsEndsWith]
    rw [show ('[' :: (stringifyArr (tags.map jstr) ++ [']']) : JStr).reverse =
      ']' :: (stringifyArr (tags.map jstr)).reverse ++ ['['] from by simp]
    simp [jsStartsWith]
  rw [parseTags, hje, hsw, hew]
  simp only [Bool.false_eq_true, if_false, Bool.and_self, if_true]
  rw [jsonParse_stringify (jarr (tags.map jstr))
    (by simp [goodJson, goodArr_map_jstr])]
  exact filterMap_jstr tags

/-! ### Remaining round trip helpers -/

theorem stringify_jarr_stable (xs : List Json) :
    jsTrim (stringifyJson (jarr xs)) = stringifyJson (jarr xs) := by
  have hs : stringifyJson (jarr xs) =
      ('[' :: stringifyArr xs) ++ [']'] := by
    simp [stringifyJson]
  rw [hs]
  apply jsTrim_of_parts
  · rw [show (('[' :: stringifyArr xs) ++ [']'] : JStr) =
      '[' :: (stringifyArr xs ++ [']']) from by simp]
    exact jsTrimLeft_cons_not_ws '[' _ (by decide)
  · exact jsTrimRight_snoc_not_ws _ ']' (by decide)

theorem goodArr_of_forall :
    ∀ xs : List Json, (∀ a ∈ xs, goodJson a = true) → goodArr xs = true := by
  intro xs
  induction xs with
  | nil => intro _; rfl
  | cons x xs ih =>
    intro h
    rw [goodArr, h x (by simp), ih (fun a ha => h a (by simp [ha]))]
    rfl

theorem joinSep_no_newline :
    ∀ tags : List JStr, (∀ tg ∈ tags, '\n' ∉ tg) →
      '\n' ∉ joinSep "، ".data tags := by
  intro tags
  induction tags with
  | nil => simp [joinSep]
  | cons x xs ih =>
    intro hall
    cases xs with
    | nil => simpa [joinSep] using hall x (by simp)
    | cons y ys =>
      rw [joinSep]
      intro hmem
      rcases List.mem_append.mp hmem with h | h
      · rcases List.mem_append.mp h with h | h
        · exact hall x (by simp) h
        · simp at h
      · exact ih (fun tg htg => hall tg (by simp [htg])) h

theorem parse_verse_block :
    ∀ (vs : List AbyatVerse) (q : AbyatPoem),
      (∀ v ∈ vs, jsTrim v.sadr = v.sadr ∧ '|' ∉ v.sadr ∧
        jsTrim v.ajaz = v.ajaz ∧ '|' ∉ v.ajaz) →
      parseLines
        ((vs.map (fun v => v.sadr ++ " | ".data ++ v.ajaz)) ++ ["```".data])
        false q = { q with verses := q.verses ++ vs } := by
  intro vs
  induction vs with
  | nil =>
    intro q _
    simp only [List.map_nil, List.nil_append, List.append_nil]
    exact parseLines_fence_end q
  | cons v vs ih =>
    intro q hall
    obtain ⟨hs, hsp, ha, hap⟩ := hall v (by simp)
    have hline : v.sadr ++ " | ".data ++ v.ajaz =
        v.sadr ++ ' ' :: '|' :: ' ' :: v.ajaz := by simp
    have hpipe : '|' ∈ jsTrim (v.sadr ++ ' ' :: '|' :: ' ' :: v.ajaz) :=
      verse_line_pipe_mem v.sadr v.ajaz hs ha
    have hnd : jsTrim (v.sadr ++ ' ' :: '|' :: ' ' :: v.ajaz) ≠
        "---".data := by
      intro he
      rw [he] at hpipe
      simp at hpipe
    have hne : jsTrim (v.sadr ++ ' ' :: '|' :: ' ' :: v.ajaz) ≠ [] := by
      intro he
      rw [he] at hpipe
      simp at hpipe
    simp only [List.map_cons, List.cons_append]
    rw [hline, parseLines_verse_cons _ _ q hnd hne]
    have hpv : parseVerseLine
        (jsTrim (v.sadr ++ ' ' :: '|' :: ' ' :: v.ajaz)) q =
        { q with verses := q.verses ++ [v] } := by
      rw [parseVerseLine, verse_line_parts v.sadr v.ajaz hs ha hsp hap]
    rw [hpv, ih _ (fun w hw => hall w (by simp [hw]))]
    simp

/-! ### Segment decomposition of the serialized metadata block -/

/-- Title segment of addMetadataToLines. -/
def titleSeg (topt : Option JStr) : List JStr :=
  match topt with
  | some t => if !t.isEmpty then ["title: ".data ++ t] else []
  | none => []

/-- Poet segment of addMetadataToLines. -/
def poetSeg (topt : Option JStr) : List JStr :=
  match topt with
  | some t => if !t.isEmpty then ["poet: ".data ++ t] else []
  | none => []

/-- Tags segment of addMetadataToLines. -/
def tagsSeg (tags : List JStr) : List JStr :=
  if !tags.isEmpty then ["tags: ".data ++ formatTags tags] else []

/-- Annotations segment of addMetadataToLines. -/
def annSeg (annotations : List Json) : List JStr :=
  if !annotations.isEmpty then
    ["annotations: ".data ++ stringifyJson (jarr annotations)]
  else []

/-- Legacy segment of addMetadataToLines. -/
def legSeg (legacy : Option Json) : List JStr :=
  match legacy with
  | some l =>
    if jsTruthy l && !(objKeys l).isEmpty then
      ["legacyAnnotations: ".data ++ stringifyJson l]
    else []
  | none => []

theorem addMetadataToLines_eq (p : AbyatPoem) :
    addMetadataToLines p =
      titleSeg p.title ++ poetSeg p.poet ++ tagsSeg p.tags ++
        ["layout: ".data ++ p.layout, "size: ".data ++ p.size,
         "numbered: ".data ++
           (if p.numbered then "true".data else "false".data)] ++
        annSeg p.annotations ++ legSeg p.legacyAnnotations := rfl

/-- One fold step of the metadata scan. -/
def metaStep (q : AbyatPoem) (l : JStr) : AbyatPoem :=
  parseMetadataLine (jsTrim l) q

/-- A serializable optional one-line field: absent, or stable and
single-line. -/
def optLineOk : Option JStr → Prop
  | none => True
  | some t => t ≠ [] ∧ jsTrim t = t ∧ '\n' ∉ t

theorem titleSeg_facts (topt : Option JStr) (h : optLineOk topt) :
    (∀ l ∈ titleSeg topt, '\n' ∉ l ∧ jsTrim l ≠ "---".data) ∧
      ∀ q, (titleSeg topt).foldl metaStep q =
        (match topt with
         | none => q
         | some t => { q with title := some t }) := by
  cases topt with
  | none => exact ⟨by simp [titleSeg], fun q => rfl⟩
  | some t =>
    obtain ⟨tne, tst, tnl⟩ := h
    have hline : titleSeg (some t) = ["title: ".data ++ t] := by
      have : t.isEmpty = false := by
        cases t with
        | nil => exact absurd rfl tne
        | cons c cs => rfl
      simp [titleSeg, this]
    have hstable : jsTrim ("title: ".data ++ t) = "title: ".data ++ t :=
      meta_line_stable "title: ".data t (by decide) (by decide) tst tne
    constructor
    · intro l hl
      rw [hline, List.mem_singleton] at hl
      subst hl
      constructor
      · intro hmem
        rcases List.mem_append.mp hmem with hm | hm
        · revert hm; decide
        · exact tnl hm
      · rw [hstable]
        exact line_ne_dashes 't' _ t (by decide)
    · intro q
      rw [hline]
      simp only [List.foldl_cons, List.foldl_nil, metaStep]
      rw [hstable, pml_title t q, tst]

theorem poetSeg_facts (topt : Option JStr) (h : optLineOk topt) :
    (∀ l ∈ poetSeg topt, '\n' ∉ l ∧ jsTrim l ≠ "---".data) ∧
      ∀ q, (poetSeg topt).foldl metaStep q =
        (match topt with
         | none => q
         | some t => { q with poet := some t }) := by
  cases topt with
  | none => exact ⟨by simp [poetSeg], fun q => rfl⟩
  | some t =>
    obtain ⟨tne, tst, tnl⟩ := h
    have hline : poetSeg (some t) = ["poet: ".data ++ t] := by
      have : t.isEmpty = false := by
        cases t with
        | nil => exact absurd rfl tne
        | cons c cs => rfl
      simp [poetSeg, this]
    have hstable : jsTrim ("poet: ".data ++ t) = "poet: ".data ++ t :=
      meta_line_stable "poet: ".data t (by decide) (by decide) tst tne
    constructor
    · intro l hl
      rw [hline, List.mem_singleton] at hl
      subst hl
      constructor
      · intro hmem
        rcases List.mem_append.mp hmem with hm | hm
        · revert hm; decide
        · exact tnl hm
      · rw [hstable]
        exact line_ne_dashes 'p' _ t (by decide)
    · intro q
      rw [hline]
      simp only [List.foldl_cons, List.foldl_nil, metaStep]
      rw [hstable, pml_poet t q, tst]

theorem tagsSeg_facts (tags : List JStr)
    (hall : ∀ tg ∈ tags, tg ≠ [] ∧ jsTrim tg = tg ∧ '\n' ∉ tg ∧
      ',' ∉ tg ∧ '،' ∉ tg)
    (hbr : (jsStartsWith "[".data (formatTags tags) &&
      jsEndsWith "]".data (formatTags tags)) = false) :
    (∀ l ∈ tagsSeg tags, '\n' ∉ l ∧ jsTrim l ≠ "---".data) ∧
      ∀ q, (tagsSeg tags).foldl metaStep q =
        (if tags.isEmpty then q else { q with tags := tags }) := by
  cases tags with
  | nil => exact ⟨by simp [tagsSeg], fun q => by simp [tagsSeg]⟩
  | cons x xs =>
    have hfmt : formatTags (x :: xs) = joinSep "، ".data (x :: xs) := by
      simp [formatTags]
    have hxne : x ≠ [] := (hall x (by simp)).1
    have hstj : jsTrim (joinSep "، ".data (x :: xs)) =
        joinSep "، ".data (x :: xs) :=
      joinSep_stable (x :: xs) (fun tg htg => ⟨(hall tg htg).1,
        (hall tg htg).2.1⟩) (by simp)
    have hjne : joinSep "، ".data (x :: xs) ≠ [] :=
      joinSep_ne_nil _ x xs hxne
    have hline : tagsSeg (x :: xs) =
        ["tags: ".data ++ joinSep "، ".data (x :: xs)] := by
      simp [tagsSeg, hfmt]
    have hstable : jsTrim ("tags: ".data ++ joinSep "، ".data (x :: xs)) =
        "tags: ".data ++ joinSep "، ".data (x :: xs) :=
      meta_line_stable "tags: ".data _ (by decide) (by decide) hstj hjne
    constructor
    · intro l hl
      rw [hline, List.mem_singleton] at hl
      subst hl
      constructor
      · intro hmem
        rcases List.mem_append.mp hmem with hm | hm
        · revert hm; decide
        · exact joinSep_no_newline (x :: xs)
            (fun tg htg => (hall tg htg).2.2.1) hm
      · rw [hstable]
        exact line_ne_dashes 't' _ _ (by decide)
    · intro q
      rw [hline]
      simp only [List.foldl_cons, List.foldl_nil, metaStep]
      rw [hstable, pml_tags, hstj, ← hfmt, parseTags_formatTags (x :: xs)
        (fun tg htg => ⟨(hall tg htg).1, (hall tg htg).2.1,
          (hall tg htg).2.2.2.1, (hall tg htg).2.2.2.2⟩) hbr]
      simp

theorem fixedSeg_facts (layout size : JStr) (numbered : Bool)
    (hL : layout = "side-by-side".data ∨ layout = "stacked".data)
    (hS : size = "small".data ∨ size = "medium".data ∨
      size = "large".data) :
    (∀ l ∈ ["layout: ".data ++ layout, "size: ".data ++ size,
        "numbered: ".data ++ (if numbered then "true".data
          else "false".data)],
      '\n' ∉ l ∧ jsTrim l ≠ "---".data) ∧
    ∀ q, (["layout: ".data ++ layout, "size: ".data ++ size,
        "numbered: ".data ++ (if numbered then "true".data
          else "false".data)]).foldl metaStep q =
      { q with layout := layout, size := size, numbered := numbered } := by
  have hLst : jsTrim layout = layout ∧ '\n' ∉ layout ∧ layout ≠ [] := by
    rcases hL with h | h <;> subst h <;> refine ⟨by decide, by decide, by decide⟩
  have hSst : jsTrim size = size ∧ '\n' ∉ size ∧ size ≠ [] := by
    rcases hS with h | h | h <;> subst h <;>
      refine ⟨by decide, by decide, by decide⟩
  have hNval : (if numbered then "true".data else "false".data) = "true".data
      ∨ (if numbered then "true".data else "false".data) = "false".data := by
    cases numbered <;> simp
  have hNst : jsTrim (if numbered then "true".data else "false".data) =
      (if numbered then "true".data else "false".data) ∧
      '\n' ∉ (if numbered then "true".data else "false".data) ∧
      (if numbered then "true".data else "false".data) ≠ [] := by
    rcases hNval with h | h <;> rw [h] <;>
      refine ⟨by decide, by decide, by decide⟩
  have hLline : jsTrim ("layout: ".data ++ layout) =
      "layout: ".data ++ layout :=
    meta_line_stable _ _ (by decide) (by decide) hLst.1 hLst.2.2
  have hSline : jsTrim ("size: ".data ++ size) = "size: ".data ++ size :=
    meta_line_stable _ _ (by decide) (by decide) hSst.1 hSst.2.2
  have hNline : jsTrim ("numbered: ".data ++
      (if numbered then "true".data else "false".data)) =
      "numbered: ".data ++ (if numbered then "true".data
        else "false".data) :=
    meta_line_stable _ _ (by decide) (by decide) hNst.1 hNst.2.2
  constructor
  · intro l hl
    simp only [List.mem_cons, List.not_mem_nil, or_false] at hl
    rcases hl with h | h | h
    · subst h
      refine ⟨?_, ?_⟩
      · intro hmem
        rcases List.mem_append.mp hmem with hm | hm
        · revert hm; decide
        · exact hLst.2.1 hm
      · rw [hLline]
        exact line_ne_dashes 'l' _ _ (by decide)
    · subst h
      refine ⟨?_, ?_⟩
      · intro hmem
        rcases List.mem_append.mp hmem with hm | hm
        · revert hm; decide
        · exact hSst.2.1 hm
      · rw [hSline]
        exact line_ne_dashes 's' _ _ (by decide)
    · subst h
      refine ⟨?_, ?_⟩
      · intro hmem
        rcases List.mem_append.mp hmem with hm | hm
        · revert hm; decide
        · exact hNst.2.1 hm
      · rw [hNline]
        exact line_ne_dashes 'n' _ _ (by decide)
  · intro q
    simp only [List.foldl_cons, List.foldl_nil, metaStep]
    rw [hLline, pml_layout, hLst.1, if_pos hL]
    rw [hSline, pml_size]
    simp only [hSst.1]
    rw [if_pos hS]
    rw [hNline, pml_numbered]
    simp only [hNst.1]
    have : ((if numbered then "true".data else "false".data) = "true".data)
        = (numbered = true) := by
      cases numbered with
      | true => simp
      | false =>
        simp only [if_false, Bool.false_eq_true]
        exact eq_false (by decide)
    simp [this]

theorem annSeg_facts (annotations : List Json)
    (hall : ∀ a ∈ annotations, goodJson a = true) :
    (∀ l ∈ annSeg annotations, '\n' ∉ l ∧ jsTrim l ≠ "---".data) ∧
      ∀ q, (annSeg annotations).foldl metaStep q =
        (if annotations.isEmpty then q
         else { q with annotations := annotations }) := by
  cases annotations with
  | nil => exact ⟨by simp [annSeg], fun q => by simp [annSeg]⟩
  | cons a as =>
    have hline : annSeg (a :: as) =
        ["annotations: ".data ++ stringifyJson (jarr (a :: as))] := by
      simp [annSeg]
    have hsne : stringifyJson (jarr (a :: as)) ≠ [] := by
      have := stringify_length_pos (jarr (a :: as))
      intro h
      rw [h] at this
      simp at this
    have hstable : jsTrim ("annotations: ".data ++
        stringifyJson (jarr (a :: as))) =
        "annotations: ".data ++ stringifyJson (jarr (a :: as)) :=
      meta_line_stable _ _ (by decide) (by decide)
        (stringify_jarr_stable (a :: as)) hsne
    constructor
    · intro l hl
      rw [hline, List.mem_singleton] at hl
      subst hl
      constructor
      · intro hmem
        rcases List.mem_append.mp hmem with hm | hm
        · revert hm; decide
        · exact stringify_no_newline (jarr (a :: as)) hm
      · rw [hstable]
        exact line_ne_dashes 'a' _ _ (by decide)
    · intro q
      rw [hline]
      simp only [List.foldl_cons, List.foldl_nil, metaStep]
      rw [hstable, pml_annots, stringify_jarr_stable (a :: as),
        jsonParse_stringify (jarr (a :: as))
          (by simp [goodJson, goodArr_of_forall (a :: as) hall])]
      simp

theorem parseLines_meta_cons (l : JStr) (ls : List JStr) (p : AbyatPoem)
    (h1 : jsTrim l ≠ "---".data) :
    parseLines (l :: ls) true p =
      parseLines ls true (parseMetadataLine (jsTrim l) p) := by
  simp [parseLines, h1]

/-- Well-formedness of a poem for the serializer round trip: exactly the
poems the serializer itself produces from the editing surface (trim-stable
single-line fields, no pipe inside hemistichs, tags free of list
delimiters and not shaped like a JSON array, valid enum values, annotation
objects with distinct keys, no legacy field). -/
def wellFormedPoem (p : AbyatPoem) : Prop :=
  (∀ t ∈ p.title, t ≠ [] ∧ jsTrim t = t ∧ '\n' ∉ t) ∧
  (∀ t ∈ p.poet, t ≠ [] ∧ jsTrim t = t ∧ '\n' ∉ t) ∧
  (∀ tg ∈ p.tags, tg ≠ [] ∧ jsTrim tg = tg ∧ '\n' ∉ tg ∧ ',' ∉ tg ∧
    '،' ∉ tg) ∧
  (jsStartsWith "[".data (formatTags p.tags) &&
    jsEndsWith "]".data (formatTags p.tags)) = false ∧
  (∀ v ∈ p.verses, jsTrim v.sadr = v.sadr ∧ '\n' ∉ v.sadr ∧ '|' ∉ v.sadr ∧
    jsTrim v.ajaz = v.ajaz ∧ '\n' ∉ v.ajaz ∧ '|' ∉ v.ajaz) ∧
  (p.layout = "side-by-side".data ∨ p.layout = "stacked".data) ∧
  (p.size = "small".data ∨ p.size = "medium".data ∨
    p.size = "large".data) ∧
  (∀ a ∈ p.annotations, goodJson a = true) ∧
  p.legacyAnnotations = none

/-- Claim C1: for every poem with no legacy field whose textual fields are in
the normal form that the serializer itself produces (trimmed, no embedded
newlines or delimiters, canonical layout/size values, well-formed annotation
JSON), parsing the serialized markdown yields a poem structurally equal to the
original, field for field, including verse order and the annotation list. -/
theorem roundtrip_poem (p : AbyatPoem) (h : wellFormedPoem p) :
    parsePoem (generatePoemMarkdown p) = p := by
  obtain ⟨title, poet, tags, verses, layout, size, numbered, annotations,
    legacy⟩ := p
  obtain ⟨hT, hP, hTags, hBr, hV, hL, hS, hA, hLeg⟩ := h
  simp only at hT hP hTags hBr hV hL hS hA hLeg
  subst hLeg
  have hT' : optLineOk title := by
    cases title with
    | none => trivial
    | some t => exact hT t rfl
  have hP' : optLineOk poet := by
    cases poet with
    | none => trivial
    | some t => exact hP t rfl
  obtain ⟨hT1, hT2⟩ := titleSeg_facts title hT'
  obtain ⟨hP1, hP2⟩ := poetSeg_facts poet hP'
  obtain ⟨hG1, hG2⟩ := tagsSeg_facts tags hTags hBr
  obtain ⟨hF1, hF2⟩ := fixedSeg_facts layout size numbered hL hS
  obtain ⟨hAn1, hAn2⟩ := annSeg_facts annotations hA
  have hgen : generatePoemMarkdown
      ⟨title, poet, tags, verses, layout, size, numbered, annotations,
        none⟩ =
      joinSep "\n".data
        ("```abyat".data ::
          (titleSeg title ++ (poetSeg poet ++ (tagsSeg tags ++
            (["layout: ".data ++ layout, "size: ".data ++ size,
              "numbered: ".data ++ (if numbered then "true".data
                else "false".data)] ++ annSeg annotations))) ++
            ("---".data ::
              (verses.map (fun v => v.sadr ++ " | ".data ++ v.ajaz) ++
                ["```".data])))) := by
    rw [generatePoemMarkdown, addMetadataToLines_eq]
    simp [legSeg]
  have hnl : ∀ l ∈ ("```abyat".data ::
      (titleSeg title ++ (poetSeg poet ++ (tagsSeg tags ++
        (["layout: ".data ++ layout, "size: ".data ++ size,
          "numbered: ".data ++ (if numbered then "true".data
            else "false".data)] ++ annSeg annotations))) ++
        ("---".data ::
          (verses.map (fun v => v.sadr ++ " | ".data ++ v.ajaz) ++
            ["```".data])))), '\n' ∉ l := by
    intro l hl
    rcases List.mem_cons.mp hl with h | h
    · subst h; decide
    · rcases List.mem_append.mp h with h | h
      · rcases List.mem_append.mp h with h | h
        · exact (hT1 l h).1
        · rcases List.mem_append.mp h with h | h
          · exact (hP1 l h).1
          · rcases List.mem_append.mp h with h | h
            · exact (hG1 l h).1
            · rcases List.mem_append.mp h with h | h
              · exact (hF1 l h).1
              · exact (hAn1 l h).1
      · rcases List.mem_cons.mp h with h | h
        · subst h; decide
        · rcases List.mem_append.mp h with h | h
          · obtain ⟨v, hv, hvl⟩ := List.mem_map.mp h
            obtain ⟨-, hns, -, -, hna, -⟩ := hV v hv
            subst hvl
            intro hmem
            rcases List.mem_append.mp hmem with hm | hm
            · rcases List.mem_append.mp hm with hm | hm
              · exact hns hm
              · revert hm; decide
            · exact hna hm
          · rw [List.mem_singleton] at h
            subst h; decide
  have hsplit := jsSplit_joinSep '\n' _ (by simp) hnl
  rw [hgen, parsePoem]
  simp only [parsePoemScan]
  rw [hsplit]
  rw [parseLines_meta_cons _ _ _ (by decide)]
  rw [show jsTrim "```abyat".data = "```abyat".data from by decide,
    pml_fence]
  rw [parseLines_meta_append _ _ _
    (by
      intro l hl
      rcases List.mem_append.mp hl with h | h
      · exact (hT1 l h).2
      · rcases List.mem_append.mp h with h | h
        · exact (hP1 l h).2
        · rcases List.mem_append.mp h with h | h
          · exact (hG1 l h).2
          · rcases List.mem_append.mp h with h | h
            · exact (hF1 l h).2
            · exact (hAn1 l h).2)]
  rw [show (fun (q : AbyatPoem) (l : JStr) =>
    parseMetadataLine (jsTrim l) q) = metaStep from rfl]
  rw [List.foldl_append, List.foldl_append, List.foldl_append,
    List.foldl_append]
  rw [hT2, hP2, hG2, hF2, hAn2]
  rw [parseLines_sep]
  rw [parse_verse_block verses _
    (fun v hv => ⟨(hV v hv).1, (hV v hv).2.2.1, (hV v hv).2.2.2.1,
      (hV v hv).2.2.2.2.2⟩)]
  clear hgen hsplit hnl hT1 hP1 hG1 hF1 hAn1 hT2 hP2 hG2 hF2 hAn2 hTags
    hBr hV hL hS hA hT hP
  cases title <;> cases poet <;>
    by_cases htg : tags.isEmpty <;> by_cases han : annotations.isEmpty <;>
      simp_all [createDefaultPoem, List.isEmpty_iff]

/-- Witness for C1: a concrete well-formed poem round-trips. -/
theorem roundtrip_poem_witness : wellFormedPoem testPoem ∧
    parsePoem (generatePoemMarkdown testPoem) = testPoem :=
  ⟨by refine ⟨?_,?_,?_,?_,?_,?_,?_,?_,?_⟩ <;> decide,
   roundtrip_poem testPoem
     (by refine ⟨?_,?_,?_,?_,?_,?_,?_,?_,?_⟩ <;> decide)⟩


/-! ### Claim theorems for the modal operations, tags, tolerance and migration -/

/-- For nonempty selection and annotation ranges, the three-disjunct test
of the code agrees with the half-open overlap test of the spec. -/
theorem overlapCode_eq_spec (r : SelRange) (a : AbyatAnnot)
    (hr : r.startPos < r.endPos) (ha : a.startPos < a.endPos) :
    overlapCode r a = overlapSpec r a := by
  rw [Bool.eq_iff_iff]
  simp only [overlapCode, overlapSpec, Bool.and_eq_true, Bool.or_eq_true,
    decide_eq_true_eq]
  constructor
  · rintro ⟨⟨h1, h2⟩, h3⟩
    exact ⟨⟨⟨h1, h2⟩, by omega⟩, by omega⟩
  · rintro ⟨⟨⟨h1, h2⟩, h3⟩, h4⟩
    refine ⟨⟨h1, h2⟩, ?_⟩
    omega

/-- The repeated filter of the eviction loop removes exactly the elements
whose id occurs in the scanned list. -/
theorem foldl_remove_eq (ov : List AbyatAnnot) (l : List AbyatAnnot) :
    ov.foldl (fun acc o => acc.filter (fun a => !(a.id = o.id))) l
      = l.filter (fun a => decide (∀ o ∈ ov, ¬(a.id = o.id))) := by
  induction ov generalizing l with
  | nil => simp
  | cons o ov ih =>
    simp only [List.foldl_cons, ih, List.filter_filter]
    apply List.filter_congr
    intro a _
    rw [Bool.eq_iff_iff]
    simp only [List.mem_cons, decide_eq_true_eq, Bool.and_eq_true,
      Bool.not_eq_true', decide_eq_false_iff_not]
    constructor
    · rintro ⟨h1, h2⟩ o' ho'
      rcases ho' with rfl | ho'
      · simpa using h2
      · exact h1 o' ho'
    · intro h
      exact ⟨fun o' ho' => h o' (Or.inr ho'), by
        simpa using h o (Or.inl rfl)⟩

/-- Claim C2: on the insert path, for nonempty selected text, a nonempty
selection range, well-formed existing ranges and pairwise distinct ids with
a fresh new id, saveAnnotation evicts exactly the annotations of the same
verse and part whose half-open range overlaps the selection, keeps all
others, appends the new annotation with the fresh id, preserves id
uniqueness, and afterwards exactly the new annotation overlaps the
selection. -/
theorem saveAnnot_eviction (anns : List AbyatAnnot)
    (selText glossText freshId : JStr) (r : SelRange)
    (hne : selText ≠ [])
    (hr : r.startPos < r.endPos)
    (hW : ∀ a ∈ anns, a.startPos < a.endPos)
    (hNodup : (anns.map (fun a => a.id)).Nodup)
    (hFresh : ∀ a ∈ anns, a.id ≠ freshId) :
    saveAnnot anns selText (some r) glossText freshId none
      = anns.filter (fun a => !(overlapSpec r a)) ++
        [newAnnOf r selText glossText freshId] ∧
    ((saveAnnot anns selText (some r) glossText freshId none).map
      (fun a => a.id)).Nodup ∧
    (saveAnnot anns selText (some r) glossText freshId none).filter
        (overlapSpec r)
      = [newAnnOf r selText glossText freshId] := by
  have hE : selText.isEmpty = false := by
    cases selText
    · exact absurd rfl hne
    · rfl
  have hrem0 : (anns.filter (overlapCode r)).foldl
      (fun acc o => acc.filter (fun a => !(a.id = o.id))) anns
      = anns.filter (fun a => !(overlapCode r a)) := by
    rw [foldl_remove_eq]
    apply List.filter_congr
    intro a ha
    rw [Bool.eq_iff_iff]
    simp only [decide_eq_true_eq, Bool.not_eq_true', List.mem_filter]
    constructor
    · intro h
      by_cases hoc : overlapCode r a = true
      · exact absurd rfl (h a ⟨ha, hoc⟩)
      · exact Bool.not_eq_true _ ▸ (by simpa using hoc)
    · rintro hfalse o ⟨ho, hoc⟩ hid
      have := List.inj_on_of_nodup_map hNodup ha ho hid
      rw [this] at hfalse
      rw [hfalse] at hoc
      cases hoc
  have hrem : (anns.filter (overlapCode r)).foldl
      (fun acc o => acc.filter (fun a => !(a.id = o.id))) anns
      = anns.filter (fun a => !(overlapSpec r a)) := by
    rw [hrem0]
    apply List.filter_congr
    intro a ha
    rw [overlapCode_eq_spec r a hr (hW a ha)]
  have heq : saveAnnot anns selText (some r) glossText freshId none
      = anns.filter (fun a => !(overlapSpec r a)) ++
        [newAnnOf r selText glossText freshId] := by
    simp only [saveAnnot, hE, Bool.false_eq_true, if_false, hrem, newAnnOf]
  refine ⟨heq, ?_, ?_⟩
  · rw [heq, List.map_append]
    apply List.Nodup.append
    · exact hNodup.sublist ((List.filter_sublist anns).map _)
    · exact List.nodup_singleton _
    · intro x hx1 hx2
      simp only [List.map_cons, List.map_nil, List.mem_singleton,
        newAnnOf] at hx2
      obtain ⟨a, ha, rfl⟩ := List.mem_map.mp hx1
      exact hFresh a (List.mem_of_mem_filter ha) (hx2 ▸ rfl)
  · rw [heq, List.filter_append, List.filter_filter]
    have h1 : anns.filter
        (fun a => overlapSpec r a && !(overlapSpec r a)) = [] := by
      apply List.filter_eq_nil_iff.mpr
      intro a _
      simp
    have h2 : overlapSpec r (newAnnOf r selText glossText freshId)
        = true := by
      simp [overlapSpec, newAnnOf, hr]
    simp [h1, h2]

theorem saveAnnot_eviction_witness :
    (saveAnnot [c2Old] "نص".data (some c2Range) "معنى".data "f1".data none
      = [c2Old].filter (fun a => !(overlapSpec c2Range a)) ++
        [newAnnOf c2Range "نص".data "معنى".data "f1".data] ∧
    ((saveAnnot [c2Old] "نص".data (some c2Range) "معنى".data "f1".data
      none).map (fun a => a.id)).Nodup ∧
    (saveAnnot [c2Old] "نص".data (some c2Range) "معنى".data "f1".data
      none).filter (overlapSpec c2Range)
      = [newAnnOf c2Range "نص".data "معنى".data "f1".data]) ∧
    saveAnnot [c2Old] "نص".data (some c2Range) "معنى".data "f1".data none
      = [newAnnOf c2Range "نص".data "معنى".data "f1".data] :=
  ⟨saveAnnot_eviction [c2Old] "نص".data "معنى".data "f1".data c2Range
    (by decide) (by decide) (by decide) (by decide) (by decide),
   by decide⟩

/-- Claim C3: deleting the verse at a valid index k removes that verse,
removes exactly the annotations with verseIndex k, decrements the
verseIndex of annotations beyond k, and leaves all others unchanged. -/
theorem deleteVerse_cascade (verses : List AbyatVerse)
    (anns : List AbyatAnnot) (k : Nat) (hk : k < verses.length) :
    (deleteVerse verses anns k).1 = verses.eraseIdx k ∧
    (deleteVerse verses anns k).1.length + 1 = verses.length ∧
    (deleteVerse verses anns k).2 = anns.filterMap (deleteSpecAnn k) := by
  refine ⟨rfl, ?_, ?_⟩
  · simp only [deleteVerse]
    rw [List.length_eraseIdx_of_lt hk]
    omega
  · simp only [deleteVerse]
    induction anns with
    | nil => rfl
    | cons a as ih =>
      simp only [List.filter_cons, List.filterMap_cons, deleteSpecAnn]
      by_cases h1 : a.verseIndex = k
      · simp [h1, ih]
      · by_cases h2 : k < a.verseIndex
        · simp [h1, h2, ih]
        · simp [h1, h2, ih]

theorem deleteVerse_cascade_witness :
    ((deleteVerse c3Verses
        [c3Ann 0 "a".data, c3Ann 1 "b".data, c3Ann 2 "c".data] 1).1
      = c3Verses.eraseIdx 1 ∧
    (deleteVerse c3Verses
        [c3Ann 0 "a".data, c3Ann 1 "b".data, c3Ann 2 "c".data] 1).1.length
        + 1 = c3Verses.length ∧
    (deleteVerse c3Verses
        [c3Ann 0 "a".data, c3Ann 1 "b".data, c3Ann 2 "c".data] 1).2
      = [c3Ann 0 "a".data, c3Ann 1 "b".data,
          c3Ann 2 "c".data].filterMap (deleteSpecAnn 1)) ∧
    (deleteVerse c3Verses
        [c3Ann 0 "a".data, c3Ann 1 "b".data, c3Ann 2 "c".data] 1).2
      = [c3Ann 0 "a".data, c3Ann 1 "c".data] :=
  ⟨deleteVerse_cascade c3Verses
      [c3Ann 0 "a".data, c3Ann 1 "b".data, c3Ann 2 "c".data] 1
      (by decide),
   by decide⟩

/-- Claim C7: swapping the verses at valid indices i and j exchanges the
two verse values, leaves every other verse in place, and re-points exactly
the annotations referencing i or j to the other index, changing nothing
else in any annotation. -/
theorem moveVerse_swap (verses : List AbyatVerse) (anns : List AbyatAnnot)
    (i j : Nat) (hi : i < verses.length) (hj : j < verses.length) :
    (moveVerse verses anns i j).1.length = verses.length ∧
    (moveVerse verses anns i j).1[i]? = verses[j]? ∧
    (moveVerse verses anns i j).1[j]? = verses[i]? ∧
    (∀ m, m ≠ i → m ≠ j →
      (moveVerse verses anns i j).1[m]? = verses[m]?) ∧
    (moveVerse verses anns i j).2 = anns.map (movePointSpec i j) := by
  have hFrom : verses.getD i ⟨[], []⟩ = verses[i] := by
    simp [List.getD, List.getElem?_eq_getElem hi]
  have hTo : verses.getD j ⟨[], []⟩ = verses[j] := by
    simp [List.getD, List.getElem?_eq_getElem hj]
  refine ⟨?_, ?_, ?_, ?_, ?_⟩
  · simp [moveVerse]
  · simp only [moveVerse, hFrom, hTo]
    by_cases hij : i = j
    · subst hij
      rw [List.getElem?_set_self]
      · simp [List.getElem?_eq_getElem hi]
      · simpa using hi
    · rw [List.getElem?_set_ne (fun h => hij h.symm),
        List.getElem?_set_self]
      · simp [List.getElem?_eq_getElem hj]
      · simpa using hi
  · simp only [moveVerse, hFrom, hTo]
    rw [List.getElem?_set_self]
    · simp [List.getElem?_eq_getElem hi]
    · simpa using hj
  · intro m hmi hmj
    simp only [moveVerse]
    rw [List.getElem?_set_ne (fun h => hmj h.symm),
      List.getElem?_set_ne (fun h => hmi h.symm)]
  · rfl

theorem moveVerse_swap_witness :
    ((moveVerse c3Verses [c3Ann 0 "a".data, c3Ann 1 "b".data,
        c3Ann 5 "c".data] 0 1).1.length = c3Verses.length ∧
     (moveVerse c3Verses [c3Ann 0 "a".data, c3Ann 1 "b".data,
        c3Ann 5 "c".data] 0 1).1[0]? = c3Verses[1]? ∧
     (moveVerse c3Verses [c3Ann 0 "a".data, c3Ann 1 "b".data,
        c3Ann 5 "c".data] 0 1).1[1]? = c3Verses[0]? ∧
     (∀ m, m ≠ 0 → m ≠ 1 →
       (moveVerse c3Verses [c3Ann 0 "a".data, c3Ann 1 "b".data,
          c3Ann 5 "c".data] 0 1).1[m]? = c3Verses[m]?) ∧
     (moveVerse c3Verses [c3Ann 0 "a".data, c3Ann 1 "b".data,
        c3Ann 5 "c".data] 0 1).2
       = [c3Ann 0 "a".data, c3Ann 1 "b".data,
          c3Ann 5 "c".data].map (movePointSpec 0 1)) ∧
    (moveVerse c3Verses [c3Ann 0 "a".data, c3Ann 1 "b".data,
        c3Ann 5 "c".data] 0 1).2
      = [c3Ann 1 "a".data, c3Ann 0 "b".data, c3Ann 5 "c".data] :=
  ⟨moveVerse_swap c3Verses
      [c3Ann 0 "a".data, c3Ann 1 "b".data, c3Ann 5 "c".data] 0 1
      (by decide) (by decide),
   by decide⟩

/-- Claim C9: saving with a truthy (nonempty) existing id takes the edit
path and only replaces the gloss of the record with that id; with distinct
ids every other record is unchanged, and no eviction or insertion happens,
whatever the selection range is. -/
theorem saveAnnot_edit (anns : List AbyatAnnot) (selText g : JStr)
    (r : SelRange) (freshId eid : JStr)
    (hne : selText ≠ [])
    (heid : eid ≠ [])
    (hNodup : (anns.map (fun a => a.id)).Nodup) :
    saveAnnot anns selText (some r) g freshId (some eid)
      = anns.map (editSpec eid g) := by
  have hE : selText.isEmpty = false := by
    cases selText
    · exact absurd rfl hne
    · rfl
  have hEid : eid.isEmpty = false := by
    cases eid
    · exact absurd rfl heid
    · rfl
  simp only [saveAnnot, hE, hEid, Bool.false_eq_true, if_false]
  induction anns with
  | nil => rfl
  | cons a as ih =>
    simp only [List.map_cons, List.nodup_cons, List.mem_map] at hNodup ⊢
    simp only [updFirstGloss, editSpec]
    by_cases h : a.id = eid
    · simp only [h, if_true, if_pos rfl]
      congr 1
      have : ∀ b ∈ as, editSpec eid g b = b := by
        intro b hb
        simp only [editSpec]
        rw [if_neg]
        intro hbe
        exact hNodup.1 ⟨b, hb, by rw [hbe, h]⟩
      rw [List.map_congr_left this]
      simp
    · rw [if_neg h, if_neg h, ih hNodup.2]

theorem saveAnnot_edit_witness :
    saveAnnot [c3Ann 0 "a".data, c3Ann 1 "b".data] "ك".data
        (some (rangeOfAnnot (c3Ann 0 "a".data))) "جديد".data
        "f9".data (some "a".data)
      = [c3Ann 0 "a".data, c3Ann 1 "b".data].map
          (editSpec "a".data "جديد".data) ∧
    saveAnnot [c3Ann 0 "a".data, c3Ann 1 "b".data] "ك".data
        (some (rangeOfAnnot (c3Ann 0 "a".data))) "جديد".data
        "f9".data (some "a".data)
      = [{ c3Ann 0 "a".data with gloss := "جديد".data },
         c3Ann 1 "b".data] :=
  ⟨saveAnnot_edit [c3Ann 0 "a".data, c3Ann 1 "b".data] "ك".data
      "جديد".data (rangeOfAnnot (c3Ann 0 "a".data)) "f9".data "a".data
      (by decide) (by decide) (by decide),
   by decide⟩

theorem dropWhile_self (p : Char → Bool) (l : JStr) :
    (l.dropWhile p).dropWhile p = l.dropWhile p := by
  induction l with
  | nil => rfl
  | cons c cs ih =>
    by_cases h : p c
    · simp [List.dropWhile_cons, h, ih]
    · simp [List.dropWhile_cons, h]

theorem jsTrimLeft_idem (s : JStr) :
    jsTrimLeft (jsTrimLeft s) = jsTrimLeft s :=
  dropWhile_self jsWs s

theorem jsTrimRight_idem (y : JStr) :
    jsTrimRight (jsTrimRight y) = jsTrimRight y := by
  show ((((y.reverse.dropWhile jsWs).reverse).reverse.dropWhile
    jsWs)).reverse = (y.reverse.dropWhile jsWs).reverse
  rw [List.reverse_reverse, dropWhile_self]

theorem jsWs_head_of_trimLeft (d : Char) (t : JStr)
    (h : jsTrimLeft (d :: t) = d :: t) : jsWs d = false := by
  by_cases hw : jsWs d
  · exfalso
    rw [jsTrimLeft_cons_ws d t hw] at h
    have hlen : (jsTrimLeft t).length ≤ t.length :=
      List.Sublist.length_le (List.dropWhile_sublist jsWs)
    rw [h] at hlen
    simp at hlen
  · simpa using hw

theorem jsTrim_idem (s : JStr) : jsTrim (jsTrim s) = jsTrim s := by
  have hR : jsTrimRight (jsTrim s) = jsTrim s := by
    rw [jsTrim]
    exact jsTrimRight_idem _
  have hL : jsTrimLeft (jsTrim s) = jsTrim s := by
    rw [jsTrim]
    have hu : jsTrimLeft (jsTrimLeft s) = jsTrimLeft s := jsTrimLeft_idem s
    cases he : jsTrimLeft s with
    | nil => rfl
    | cons d t =>
      rw [he] at hu
      have hd : jsWs d = false := jsWs_head_of_trimLeft d t hu
      rw [show (d :: t) = [d] ++ t from rfl, jsTrimRight_append]
      by_cases ht : jsTrimRight t = []
      · rw [if_pos ht]
        rw [show ([d] : JStr) = [] ++ [d] from rfl,
          jsTrimRight_snoc_not_ws [] d hd]
        exact jsTrimLeft_cons_not_ws d [] hd
      · rw [if_neg ht]
        exact jsTrimLeft_cons_not_ws d (jsTrimRight t) hd
  exact jsTrim_of_parts _ hL hR

/-- Claim C8: starting from a duplicate-free tag list of nonempty trimmed
tags, adding a tag keeps the list duplicate-free with nonempty trimmed
entries, adding a tag that trims to empty or is already present leaves the
list unchanged, adding is idempotent, and tags round-trip through both the
comma-joined serialized form and the JSON-array input form. -/
theorem addTag_invariant (tags : List JStr) (input : JStr)
    (hND : tags.Nodup) (hok : ∀ t ∈ tags, t ≠ [] ∧ jsTrim t = t) :
    ((addTagFromInput tags input).Nodup ∧
     ∀ t ∈ addTagFromInput tags input, t ≠ [] ∧ jsTrim t = t) ∧
    ((jsTrim input = [] ∨ jsTrim input ∈ tags) →
      addTagFromInput tags input = tags) ∧
    addTagFromInput (addTagFromInput tags input) input
      = addTagFromInput tags input ∧
    ((∀ tg ∈ tags, ',' ∉ tg ∧ '،' ∉ tg) →
     (jsStartsWith "[".data (formatTags tags) &&
       jsEndsWith "]".data (formatTags tags)) = false →
     parseTags (formatTags tags) = tags) ∧
    parseTags (stringifyJson (jarr (tags.map jstr))) = tags := by
  have hmem : ∀ (l : List JStr) (x : JStr), l.contains x = true ↔ x ∈ l := by
    intro l x
    simp [List.contains_eq_any_beq, List.any_eq_true]
  refine ⟨?_, ?_, ?_, ?_, parseTags_json tags⟩
  · by_cases hc : (!(jsTrim input).isEmpty &&
        !(tags.contains (jsTrim input))) = true
    · have heq : addTagFromInput tags input = tags ++ [jsTrim input] := by
        simp only [addTagFromInput, hc, if_true]
      rw [heq]
      rw [Bool.and_eq_true, Bool.not_eq_true', Bool.not_eq_true'] at hc
      obtain ⟨h1, h2⟩ := hc
      have hnm : jsTrim input ∉ tags := by
        intro hm
        rw [(hmem tags (jsTrim input)).mpr hm] at h2
        cases h2
      constructor
      · simp [List.nodup_append, hND, hnm]
      · intro t ht
        rcases List.mem_append.mp ht with h | h
        · exact hok t h
        · rw [List.mem_singleton] at h
          subst h
          refine ⟨?_, jsTrim_idem input⟩
          intro hnil
          rw [hnil] at h1
          cases h1
    · have heq : addTagFromInput tags input = tags := by
        simp only [addTagFromInput]
        rw [if_neg hc]
      rw [heq]
      exact ⟨hND, hok⟩
  · intro h
    simp only [addTagFromInput]
    rw [if_neg]
    intro hc
    rw [Bool.and_eq_true, Bool.not_eq_true', Bool.not_eq_true'] at hc
    obtain ⟨h1, h2⟩ := hc
    rcases h with h | h
    · rw [h] at h1
      cases h1
    · rw [(hmem tags (jsTrim input)).mpr h] at h2
      cases h2
  · by_cases hc : (!(jsTrim input).isEmpty &&
        !(tags.contains (jsTrim input))) = true
    · have heq : addTagFromInput tags input = tags ++ [jsTrim input] := by
        simp only [addTagFromInput, hc, if_true]
      rw [heq]
      simp only [addTagFromInput]
      rw [if_neg]
      intro hc2
      rw [Bool.and_eq_true, Bool.not_eq_true', Bool.not_eq_true'] at hc2
      obtain ⟨-, h2⟩ := hc2
      rw [(hmem _ (jsTrim input)).mpr (by simp)] at h2
      cases h2
    · have heq : addTagFromInput tags input = tags := by
        simp only [addTagFromInput]
        rw [if_neg hc]
      rw [heq, heq]
  · intro h1 h2
    exact parseTags_formatTags tags
      (fun tg htg => ⟨(hok tg htg).1, (hok tg htg).2,
        (h1 tg htg).1, (h1 tg htg).2⟩) h2

theorem addTag_invariant_witness :
    ((((addTagFromInput ["حب".data] "حب".data).Nodup ∧
     ∀ t ∈ addTagFromInput ["حب".data] "حب".data,
       t ≠ [] ∧ jsTrim t = t) ∧
    ((jsTrim "حب".data = [] ∨ jsTrim "حب".data ∈ ["حب".data]) →
      addTagFromInput ["حب".data] "حب".data = ["حب".data]) ∧
    addTagFromInput (addTagFromInput ["حب".data] "حب".data) "حب".data
      = addTagFromInput ["حب".data] "حب".data ∧
    ((∀ tg ∈ ["حب".data], ',' ∉ tg ∧ '،' ∉ tg) →
     (jsStartsWith "[".data (formatTags ["حب".data]) &&
       jsEndsWith "]".data (formatTags ["حب".data])) = false →
     parseTags (formatTags ["حب".data]) = ["حب".data]) ∧
    parseTags (stringifyJson (jarr (["حب".data].map jstr)))
      = ["حب".data])) ∧
    addTagFromInput ["حب".data] "حب".data = ["حب".data] :=
  ⟨addTag_invariant ["حب".data] "حب".data (by decide) (by decide),
   by decide⟩

/-- Claim C5: parsePoem is total on every input, a malformed JSON payload
on the annotations line yields an empty annotation list while the rest of
the state is untouched, and the concrete malformed document of the spec
parses to a poem with empty annotations and the other lines intact. -/
theorem parse_graceful :
    (∀ src : JStr, ∃ p : AbyatPoem, parsePoem src = p) ∧
    (∀ (rest : JStr) (q : AbyatPoem), jsonParse (jsTrim rest) = none →
      parseMetadataLine ("annotations: ".data ++ rest) q
        = { q with annotations := [] }) ∧
    parsePoem "title: عنوان\nannotations: \x7bnot json\n---\nس | ع".data
      = { createDefaultPoem with
          title := some "عنوان".data
          annotations := []
          verses := [⟨"س".data, "ع".data⟩] } := by
  refine ⟨fun src => ⟨parsePoem src, rfl⟩, ?_, by decide⟩
  intro rest q hj
  rw [pml_annots, hj]

theorem parse_graceful_witness :
    jsonParse (jsTrim "\x7bnot json".data) = none ∧
    parseMetadataLine ("annotations: ".data ++ "\x7bnot json".data)
        createDefaultPoem = { createDefaultPoem with annotations := [] } :=
  ⟨by decide,
   parse_graceful.2.1 "\x7bnot json".data createDefaultPoem (by decide)⟩

/-- Claim C6: a verse line that does not split on the pipe character into
exactly two parts (pipe count differing from one) is dropped without
adding a verse, and the concrete document with three well-formed lines and
two malformed ones parses to exactly three trimmed verses. -/
theorem verse_line_tolerance (line : JStr) (poem : AbyatPoem)
    (h : line.count '|' ≠ 1) :
    parseVerseLine line poem = poem ∧
    (parsePoem
      "---\nس١ | ع١\nbadline\na|b|c\nس٢ | ع٢\nس٣ | ع٣".data).verses
      = [⟨"س١".data, "ع١".data⟩, ⟨"س٢".data, "ع٢".data⟩,
         ⟨"س٣".data, "ع٣".data⟩] := by
  refine ⟨?_, by decide⟩
  have hlen : ((jsSplit '|' line).map jsTrim).length ≠ 2 := by
    rw [List.length_map, jsSplit_length]
    omega
  rw [parseVerseLine]
  cases hs : (jsSplit '|' line).map jsTrim with
  | nil => rfl
  | cons a rest =>
    cases rest with
    | nil => rfl
    | cons b rest2 =>
      cases rest2 with
      | nil =>
        exfalso
        rw [hs] at hlen
        simp at hlen
      | cons c r3 => rfl

theorem verse_line_tolerance_witness :
    ("a|b|c".data.count '|' ≠ 1) ∧
    (parseVerseLine "a|b|c".data createDefaultPoem = createDefaultPoem ∧
    (parsePoem
      "---\nس١ | ع١\nbadline\na|b|c\nس٢ | ع٢\nس٣ | ع٣".data).verses
      = [⟨"س١".data, "ع١".data⟩, ⟨"س٢".data, "ع٢".data⟩,
         ⟨"س٣".data, "ع٣".data⟩]) :=
  ⟨by decide,
   verse_line_tolerance "a|b|c".data createDefaultPoem (by decide)⟩

theorem stripId_mk (cnt : Nat) (word : JStr) (gloss : Json) (vi : Nat)
    (partName : JStr) (s e : Nat) :
    stripId (mkLegacyAnnJson cnt word gloss vi partName s e)
      = specAnnJson word gloss vi partName s e := by
  simp +decide [stripId, mkLegacyAnnJson, specAnnJson, List.filter_cons]

theorem partFold_decomp (legacy : Json) (vi : Nat) (partName ptext : JStr) :
    ∀ (ws : List JStr) (c : Nat) (acc : List Json),
    ∃ k xs,
      ws.foldl
        (fun st word =>
          match jsIndexOf ptext word with
          | some i =>
              (st.1 + 1,
               st.2 ++ [mkLegacyAnnJson st.1 word (objGetD legacy word) vi
                          partName i (i + word.length)])
          | none => st)
        (c, acc) = (c + k, acc ++ xs) ∧
      xs.map stripId
        = ws.filterMap (fun word =>
            (jsIndexOf ptext word).map (fun i =>
              specAnnJson word (objGetD legacy word) vi partName i
                (i + word.length))) := by
  intro ws
  induction ws with
  | nil =>
    intro c acc
    exact ⟨0, [], by simp, by simp⟩
  | cons w ws ih =>
    intro c acc
    cases hidx : jsIndexOf ptext w with
    | none =>
      obtain ⟨k, xs, h1, h2⟩ := ih c acc
      refine ⟨k, xs, ?_, ?_⟩
      · simpa [List.foldl_cons, hidx] using h1
      · rw [h2, List.filterMap_cons, hidx]
        rfl
    | some i =>
      obtain ⟨k, xs, h1, h2⟩ := ih (c + 1)
        (acc ++ [mkLegacyAnnJson c w (objGetD legacy w) vi partName i
          (i + w.length)])
      refine ⟨k + 1, mkLegacyAnnJson c w (objGetD legacy w) vi partName i
        (i + w.length) :: xs, ?_, ?_⟩
      · rw [List.foldl_cons]
        simp only [hidx]
        rw [h1, Prod.mk.injEq]
        refine ⟨by omega, by simp⟩
      · rw [List.map_cons, h2, List.filterMap_cons, hidx, stripId_mk]
        rfl

theorem versesFold_decomp (legacy : Json) :
    ∀ (ps : List (Nat × AbyatVerse)) (c : Nat) (acc : List Json),
    ∃ k xs,
      ps.foldl
        (fun st p =>
          legacyPartScan legacy p.1 "ajaz".data p.2.ajaz
            (legacyPartScan legacy p.1 "sadr".data p.2.sadr st))
        (c, acc) = (c + k, acc ++ xs) ∧
      xs.map stripId
        = (ps.map (fun p =>
            legacySpecPart legacy p.1 "sadr".data p.2.sadr ++
            legacySpecPart legacy p.1 "ajaz".data p.2.ajaz)).flatten := by
  intro ps
  induction ps with
  | nil =>
    intro c acc
    exact ⟨0, [], by simp, by simp⟩
  | cons p ps ih =>
    intro c acc
    obtain ⟨k1, xs1, h11, h12⟩ :=
      partFold_decomp legacy p.1 "sadr".data p.2.sadr
        (objKeys legacy) c acc
    obtain ⟨k2, xs2, h21, h22⟩ :=
      partFold_decomp legacy p.1 "ajaz".data p.2.ajaz
        (objKeys legacy) (c + k1) (acc ++ xs1)
    obtain ⟨k3, xs3, h31, h32⟩ := ih (c + k1 + k2) ((acc ++ xs1) ++ xs2)
    refine ⟨k1 + k2 + k3, (xs1 ++ xs2) ++ xs3, ?_, ?_⟩
    · rw [List.foldl_cons]
      rw [show legacyPartScan legacy p.1 "sadr".data p.2.sadr (c, acc)
          = (c + k1, acc ++ xs1) from h11]
      rw [show legacyPartScan legacy p.1 "ajaz".data p.2.ajaz
          (c + k1, acc ++ xs1) = (c + k1 + k2, (acc ++ xs1) ++ xs2)
          from h21]
      rw [h31, Prod.mk.injEq]
      refine ⟨by omega, by simp⟩
    · simp only [List.map_append, List.map_cons, List.flatten_cons,
        h12, h22, h32]
      simp [legacySpecPart]

theorem convertLegacy_stripId (legacy : Json) (verses : List AbyatVerse) :
    (convertLegacyAnnotations legacy verses).map stripId
      = legacySpec legacy verses := by
  obtain ⟨k, xs, h1, h2⟩ := versesFold_decomp legacy verses.enum 0 []
  rw [convertLegacyAnnotations, h1]
  simpa [legacySpec] using h2

/-- Claim C4: whenever the scan leaves a truthy legacyAnnotations value and
no new-format annotations, parsePoem replaces the annotation list with the
converted legacy annotations, clears the legacy field, and the conversion,
up to the generated ids, gives exactly one positional annotation at the
first occurrence of each legacy key in each hemistich, with the key as
text, the gloss as annotation, and the correct part and bounds. -/
theorem legacy_migration (src : JStr) (legacy : Json)
    (hleg : (parsePoemScan src).legacyAnnotations = some legacy)
    (htru : jsTruthy legacy = true)
    (hempty : (parsePoemScan src).annotations = []) :
    (parsePoem src).legacyAnnotations = none ∧
    (parsePoem src).annotations
      = convertLegacyAnnotations legacy (parsePoemScan src).verses ∧
    ((parsePoem src).annotations).map stripId
      = legacySpec legacy (parsePoemScan src).verses ∧
    (parsePoem src).title = (parsePoemScan src).title ∧
    (parsePoem src).verses = (parsePoemScan src).verses := by
  have h : parsePoem src
      = { parsePoemScan src with
          annotations :=
            convertLegacyAnnotations legacy (parsePoemScan src).verses
          legacyAnnotations := none } := by
    rw [parsePoem]
    simp only [hleg, htru, hempty, List.isEmpty_nil, Bool.and_true,
      if_true]
  rw [h]
  exact ⟨rfl, rfl, convertLegacy_stripId legacy (parsePoemScan src).verses,
    rfl, rfl⟩

theorem legacy_migration_witness :
    ((parsePoem c4src).legacyAnnotations = none ∧
     (parsePoem c4src).annotations
       = convertLegacyAnnotations c4legacy (parsePoemScan c4src).verses ∧
     ((parsePoem c4src).annotations).map stripId
       = legacySpec c4legacy (parsePoemScan c4src).verses ∧
     (parsePoem c4src).title = (parsePoemScan c4src).title ∧
     (parsePoem c4src).verses = (parsePoemScan c4src).verses) ∧
    (parsePoem c4src).annotations
      = [mkLegacyAnnJson 0 "كلمة".data (jstr "شرح".data) 0 "sadr".data
          4 8] :=
  ⟨legacy_migration c4src c4legacy (by decide) (by decide) (by decide),
   by decide⟩

/-- Claim C10: the parser copies any well-formed JSON array on the
annotations line into the poem verbatim, checking only that it is an
array; the concrete document c10src hence parses to a poem with no verses
but an annotation whose startPos 7 exceeds its endPos 3 and whose
verseIndex 5 references no verse. -/
theorem annots_unvalidated :
    (∀ (rest : JStr) (q : AbyatPoem) (xs : List Json),
      jsonParse (jsTrim rest) = some (jarr xs) →
      parseMetadataLine ("annotations: ".data ++ rest) q
        = { q with annotations := xs }) ∧
    ((parsePoem c10src).verses = [] ∧
     (parsePoem c10src).annotations = [c10Ann] ∧
     objGet c10Ann "startPos".data = some (jnum 7) ∧
     objGet c10Ann "endPos".data = some (jnum 3) ∧
     objGet c10Ann "verseIndex".data = some (jnum 5)) := by
  refine ⟨?_, by decide, by decide, by decide, by decide, by decide⟩
  intro rest q xs hj
  rw [pml_annots, hj]

theorem annots_unvalidated_witness :
    jsonParse (jsTrim c10arr) = some (jarr [c10Ann]) ∧
    parseMetadataLine ("annotations: ".data ++ c10arr) createDefaultPoem
      = { createDefaultPoem with annotations := [c10Ann] } :=
  ⟨by decide,
   annots_unvalidated.1 c10arr createDefaultPoem [c10Ann] (by decide)⟩
